import Mathlib

/-!
Verification of the tag-tree reorganization engine of the `tagme` repository.

The development shallowly embeds:
* `leptos-dragdrop/src/lib.rs` — `Node`, `unify_hover_target`, `is_descendant`,
  `compute_drop_action`;
* `src-tauri/src/db.rs` — the `tags` table rows, `reorder_tags_in_parent`,
  `move_tag` (and the sequence of individually committed SQL statements that
  `move_tag` issues, since it opens a plain connection without a transaction);
* `src/src/app.rs` — `toggle_tag_selection` (subtree collection by explicit
  stack, selection union/subtraction, and the force-loosen signal).

Machine integers: tag ids are `u32` (modelled as `Nat`, no arithmetic is ever
performed on them), positions are `i32` (modelled as `Int`; the program only
adds/subtracts 1 and compares, far from overflow in every statement proved).
The `f64` hover ratio is modelled as `ℚ`; the only operations used on it are
comparisons against 0, 1, 0.25 and 0.75 and clamping, all exact in `f64` for
the dyadic constants involved. Rust's stable `sort_by_key` and SQLite's
`ORDER BY position` (ties kept in table order) are modelled by the stable
`List.insertionSort`. The unbounded `while let` ancestor walks are modelled
with an explicit fuel parameter, `none` meaning the loop has not finished
within that many iterations.
-/

namespace Tagme

/-- `leptos-dragdrop`'s `Node` struct: `id: u32`, `parent_id: Option<u32>`,
`position: i32`.  The frontend `TagInfo` (`src/src/app/types.rs`) carries the
same three fields plus `name`/`color`, which the drag-drop and selection logic
never reads; `setup_drag_drop` projects `TagInfo` to exactly this record. -/
structure Node where
  id : Nat
  parent_id : Option Nat
  position : Int
  deriving DecidableEq, Repr

/-- `relative_y.max(0.0).min(1.0)` in `unify_hover_target`. -/
def clamp01 (r : ℚ) : ℚ := min (max r 0) 1

/-- Rust's stable `siblings.sort_by_key(|t| t.position)`. -/
def sortByPosition (l : List Node) : List Node :=
  List.insertionSort (fun a b => a.position ≤ b.position) l

/-- `unify_hover_target` from `leptos-dragdrop/src/lib.rs`: snap the hover
target to the next sibling when hovering the bottom zone, snap the ratio to 0
in the top zone, otherwise pass through. -/
def unify_hover_target (tags : List Node) (current : Node) (relative_y : ℚ) :
    Nat × ℚ :=
  let pos := clamp01 relative_y
  if mkRat 3 4 < pos then
    let siblings :=
      sortByPosition (tags.filter (fun t => decide (t.parent_id = current.parent_id)))
    match siblings.find? (fun t => decide (current.position < t.position)) with
    | some next => (next.id, 0)
    | none => (current.id, pos)
  else if pos < mkRat 1 4 then
    (current.id, 0)
  else
    (current.id, pos)

/-- `tags.iter().find(|t| t.id == curr).and_then(|t| t.parent_id)` — the step
function of the ancestor walk. -/
def parentOfNode (tags : List Node) (i : Nat) : Option Nat :=
  (tags.find? (fun t => decide (t.id = i))).bind (fun t => t.parent_id)

/-- The `while let Some(curr) = check` loop of `is_descendant`, with fuel.
The state is the Rust variable `check`; `none` as a result means the loop has
not returned within `fuel` iterations. -/
def walk (tags : List Node) (ancestor : Nat) : Nat → Option Nat → Option Bool
  | _, none => some false
  | 0, some _ => none
  | fuel + 1, some curr =>
    if curr = ancestor then some true
    else walk tags ancestor fuel (parentOfNode tags curr)

/-- `is_descendant` from `leptos-dragdrop/src/lib.rs` (the identical inline
walk appears in `setup_drag_drop`, `src/src/app/drag_drop.rs`). -/
def is_descendant (tags : List Node) (ancestor descendant : Nat) (fuel : Nat) :
    Option Bool :=
  walk tags ancestor fuel (some descendant)

/-- `compute_drop_action` from `leptos-dragdrop/src/lib.rs`.  The outer
`Option` is `none` when the embedded ancestor walk did not finish within
`fuel` iterations (the Rust loop would still be running); the inner `Option`
is the function's own `Option<(Option<u32>, i32, &str)>`. -/
def compute_drop_action (dragged_id target_id : Nat) (pos : ℚ) (tags : List Node)
    (fuel : Nat) : Option (Option (Option Nat × Int × String)) :=
  if dragged_id = target_id then
    some none
  else
    match is_descendant tags dragged_id target_id fuel with
    | none => none
    | some true => some none
    | some false =>
      match tags.find? (fun t => decide (t.id = target_id)) with
      | some tag =>
        if pos < mkRat 1 4 then
          if tag.parent_id =
              (tags.find? (fun t => decide (t.id = dragged_id))).bind
                (fun t => t.parent_id) then
            some (some (tag.parent_id, tag.position, "before-same-parent"))
          else
            some (some (tag.parent_id, tag.position, "before"))
        else if mkRat 3 4 < pos then
          some (some (tag.parent_id, tag.position + 1, "after"))
        else
          some (some (some tag.id, 0, "child"))
      | none => some (some (none, 0, "root"))

/-- A row of the `tags` table (`db.rs` schema: `id, name, parent_id, color,
position, created_at`). -/
structure Tag where
  id : Nat
  name : String
  parent_id : Option Nat
  color : Option String
  position : Int
  created_at : Int
  deriving DecidableEq, Repr

/-- The projection `TagInfo → leptos_dragdrop::Node` performed in
`setup_drag_drop` before calling `compute_drop_action`. -/
def toNode (t : Tag) : Node := ⟨t.id, t.parent_id, t.position⟩

/-- `SELECT ... FROM tags WHERE id = ?1` (first matching row). -/
def findTag (db : List Tag) (i : Nat) : Option Tag :=
  db.find? (fun t => decide (t.id = i))

/-- `UPDATE tags SET ... WHERE id = ?` — applies `f` to every row whose id
matches, leaving the table order unchanged. -/
def updateById (db : List Tag) (i : Nat) (f : Tag → Tag) : List Tag :=
  db.map (fun t => if t.id = i then f t else t)

/-- `UPDATE tags SET position = position - 1 WHERE parent_id IS ?1 AND
position > ?2 AND position <= ?3 AND id != ?4` (same-parent forward move). -/
def shiftForward (db : List Tag) (np : Option Nat) (cur tp : Int) (i : Nat) :
    List Tag :=
  db.map (fun t =>
    if t.parent_id = np ∧ cur < t.position ∧ t.position ≤ tp ∧ t.id ≠ i then
      { t with position := t.position - 1 }
    else t)

/-- `UPDATE tags SET position = position + 1 WHERE parent_id IS ?1 AND
position >= ?2 AND position < ?3 AND id != ?4` (same-parent backward move). -/
def shiftBackward (db : List Tag) (np : Option Nat) (tp cur : Int) (i : Nat) :
    List Tag :=
  db.map (fun t =>
    if t.parent_id = np ∧ tp ≤ t.position ∧ t.position < cur ∧ t.id ≠ i then
      { t with position := t.position + 1 }
    else t)

/-- Rust/SQLite stable ordering of a parent group by `position` (SQLite scans
the table in rowid order, so equal positions keep table order). -/
def sortTagsByPosition (l : List Tag) : List Tag :=
  List.insertionSort (fun a b => a.position ≤ b.position) l

/-- `SELECT id FROM tags WHERE parent_id IS ?1 ORDER BY position` in
`reorder_tags_in_parent`. -/
def reorderIds (db : List Tag) (p : Option Nat) : List Nat :=
  (sortTagsByPosition (db.filter (fun t => decide (t.parent_id = p)))).map (fun t => t.id)

/-- `UPDATE tags SET position = ?1 WHERE id = ?2` with the enumeration index. -/
def setPosition (n : Nat) (t : Tag) : Tag := { t with position := (n : Int) }

/-- `reorder_tags_in_parent` from `db.rs`: reassign `0..count-1` in current
position order. -/
def reorder_tags_in_parent (db : List Tag) (p : Option Nat) : List Tag :=
  (reorderIds db p).enum.foldl (fun s q => updateById s q.2 (setPosition q.1)) db

/-- `move_tag` from `db.rs`.  Returns `none` when the initial
`SELECT parent_id FROM tags WHERE id = ?1` finds no row (rusqlite
`QueryReturnedNoRows`, surfaced as `Err`); otherwise the final table state. -/
def move_tag (db : List Tag) (i : Nat) (new_parent_id : Option Nat)
    (target_position : Int) : Option (List Tag) :=
  match findTag db i with
  | none => none
  | some row =>
    let old_parent_id := row.parent_id
    let db1 :=
      if old_parent_id = new_parent_id then
        if row.position < target_position then
          shiftForward db new_parent_id row.position target_position i
        else if target_position < row.position then
          shiftBackward db new_parent_id target_position row.position i
        else db
      else db
    let db2 := updateById db1 i
      (fun t => { t with parent_id := new_parent_id, position := target_position })
    if old_parent_id = new_parent_id then some db2
    else some (reorder_tags_in_parent (reorder_tags_in_parent db2 old_parent_id)
      new_parent_id)

/-- The states committed after each per-row `UPDATE` of
`reorder_tags_in_parent` (each statement autocommits: the connection carries
no transaction). -/
def reorderTrace (db : List Tag) (p : Option Nat) : List (List Tag) :=
  (((reorderIds db p).enum).scanl (fun s q => updateById s q.2 (setPosition q.1)) db).drop 1

/-- The sequence of database states visible on disk after each SQL statement
issued by `move_tag`.  `move_tag` opens a connection and never begins a
transaction, so every `UPDATE` commits on its own: if the process stops after
the k-th statement, the k-th entry of this list is the persisted table. -/
def moveTagTrace (db : List Tag) (i : Nat) (np : Option Nat) (tp : Int) :
    List (List Tag) :=
  match findTag db i with
  | none => []
  | some row =>
    let pre : List (List Tag) :=
      if row.parent_id = np then
        if row.position < tp then [shiftForward db np row.position tp i]
        else if tp < row.position then [shiftBackward db np tp row.position i]
        else []
      else []
    let db1 := pre.getLastD db
    let db2 := updateById db1 i (fun t => { t with parent_id := np, position := tp })
    if row.parent_id = np then pre ++ [db2]
    else
      let db3 := reorder_tags_in_parent db2 row.parent_id
      pre ++ [db2] ++ reorderTrace db2 row.parent_id ++ reorderTrace db3 np

/-- The multiset of positions of the parent group `p`, listed in ascending
order. -/
def groupPositions (db : List Tag) (p : Option Nat) : List Int :=
  List.insertionSort (fun a b => a ≤ b)
    ((db.filter (fun t => decide (t.parent_id = p))).map (fun t => t.position))

/-- The spec's dense-ordering invariant for one parent group: positions are
exactly `0..count-1`. -/
def denseParent (db : List Tag) (p : Option Nat) : Prop :=
  groupPositions db p =
    (List.range (db.filter (fun t => decide (t.parent_id = p))).length).map
      (fun n => (n : Int))

instance (db : List Tag) (p : Option Nat) : Decidable (denseParent db p) := by
  unfold denseParent
  infer_instance

/-- The spec's dense-ordering invariant: every parent group (including the
root group `none`) is dense. -/
def dense (db : List Tag) : Prop := ∀ p : Option Nat, denseParent db p

/-- Iterated ancestor step for a link function `g` (`g x` = parent of `x`). -/
def iterAncestor (g : Nat → Option Nat) : Nat → Nat → Option Nat
  | 0, x => some x
  | k + 1, x => (g x).bind (iterAncestor g k)

/-- No node is its own proper ancestor. -/
def AcyclicLinks (g : Nat → Option Nat) : Prop :=
  ∀ x k, iterAncestor g (k + 1) x ≠ some x

/-- `target` is the dragged node or one of its descendants: the ancestor
chain from `target` reaches `dragged`. -/
def DescendantOf (tags : List Node) (dragged target : Nat) : Prop :=
  ∃ i, iterAncestor (parentOfNode tags) i target = some dragged

/-- Ancestor step function of the tags table. -/
def parentOfTag (db : List Tag) (i : Nat) : Option Nat :=
  (findTag db i).bind (fun t => t.parent_id)

/-- The ancestor chain from `x` exits (reaches a point with no parent link)
after at most `n` steps. -/
def ReachRootWithin (g : Nat → Option Nat) (n : Nat) (x : Nat) : Prop :=
  ∃ j ≤ n, ∃ r, iterAncestor g j x = some r ∧ g r = none

/-- The ancestor chain from `x` exits. -/
def ReachRoot (g : Nat → Option Nat) (x : Nat) : Prop :=
  ∃ j, ∃ r, iterAncestor g j x = some r ∧ g r = none

/-- The ancestor chain from `y` never passes through `d`. -/
def AvoidsNode (g : Nat → Option Nat) (d y : Nat) : Prop :=
  ∀ i v, iterAncestor g i y = some v → v ≠ d

/-- Re-linking `d` to the new parent `np`, leaving every other link alone:
the effect of `move_tag` on the parent function. -/
def relink (g : Nat → Option Nat) (d : Nat) (np : Option Nat) :
    Nat → Option Nat :=
  fun x => if x = d then np else g x

/-- Every `parent_id` present references an existing row (the spec's
referential-integrity invariant; enforced by the schema's FOREIGN KEY). -/
def ParentsClosed (db : List Tag) : Prop :=
  ∀ t ∈ db, ∀ p, t.parent_id = some p → p ∈ db.map (fun u => u.id)

/-- Well-formed table: unique ids (PRIMARY KEY), closed parent references,
acyclic parent links. -/
def WFdb (db : List Tag) : Prop :=
  (db.map (fun t => t.id)).Nodup ∧ ParentsClosed db ∧ AcyclicLinks (parentOfTag db)

/-- Boolean form of referential integrity, for concrete tables. -/
def parentsClosedB (db : List Tag) : Bool :=
  db.all (fun t =>
    match t.parent_id with
    | none => true
    | some p => (db.map (fun u => u.id)).contains p)

/-- The per-stage frame relation of the reorder pass: every field except
`position` is preserved, and rows outside the reindexed parent group are left
completely untouched. -/
def ReorderRel (p : Option Nat) (t u : Tag) : Prop :=
  u.id = t.id ∧ u.name = t.name ∧ u.color = t.color ∧
    u.created_at = t.created_at ∧ u.parent_id = t.parent_id ∧
    (t.parent_id ≠ p → u = t)

/-- The master frame relation of `move_tag i np tp` on a table whose moved
row previously had parent `oldP`: ids, names, colors and creation stamps are
never written, a non-moved row keeps its parent, and a non-moved row outside
both affected sibling groups is untouched entirely. -/
def MoveRel (i : Nat) (oldP np : Option Nat) (t u : Tag) : Prop :=
  u.id = t.id ∧ u.name = t.name ∧ u.color = t.color ∧
    u.created_at = t.created_at ∧
    (t.id ≠ i → u.parent_id = t.parent_id) ∧
    (t.id ≠ i → t.parent_id ≠ oldP → t.parent_id ≠ np → u = t)

/-- Ids of the children of `p` in snapshot order —
`tags.iter().filter(|t| t.parent_id == Some(id))` in `toggle_tag_selection`. -/
def childIds (tags : List Node) (p : Nat) : List Nat :=
  (tags.filter (fun t => decide (t.parent_id = some p))).map (fun t => t.id)

/-- The `while let Some(id) = stack.pop()` subtree collection of
`toggle_tag_selection` (`src/src/app.rs`).  The Rust `Vec` stack pops from the
end; the model keeps the top of the stack at the head, so pushing the children
of `id` in snapshot order appends their reversal in front.  Fuel bounds the
number of loop iterations; on a well-formed forest `tags.length + 1` always
suffices (proved below). -/
def collect_subtree (tags : List Node) : Nat → List Nat → List Nat → List Nat
  | 0, _, acc => acc
  | _ + 1, [], acc => acc
  | fuel + 1, i :: stack, acc =>
    collect_subtree tags fuel ((childIds tags i).reverse ++ stack) (acc ++ [i])

/-- `toggle_tag_selection` from `src/src/app.rs`: collect the subtree of the
toggled tag, then either union it into the selection (push each id not yet
present, in collection order) or subtract it (`retain`); the returned flag is
`should_select && subtree_ids.len() > 1` (force union filter mode). -/
def toggle_tag_selection (tags : List Node) (current : List Nat) (tag_id : Nat) :
    List Nat × Bool :=
  let subtree_ids := collect_subtree tags (tags.length + 1) [tag_id] []
  if tag_id ∈ current then
    (current.filter (fun j => decide (j ∉ subtree_ids)), false)
  else
    (subtree_ids.foldl (fun cur j => if j ∈ cur then cur else cur ++ [j]) current,
     decide (1 < subtree_ids.length))

/-- `x` belongs to the subtree of `n`: the parent chain from `x` reaches `n`. -/
def InSubtree (tags : List Node) (n x : Nat) : Prop :=
  ∃ k, iterAncestor (parentOfNode tags) k x = some n

/-- Loop invariant of the stack-based subtree collection of
`toggle_tag_selection`: collected and pending ids are distinct members of the
subtree of `n`, children of collected ids are already collected or pending,
`n` itself is accounted for, and every pending id entered the stack as `n` or
as a child of a collected id. -/
def DfsInv (tags : List Node) (n : Nat) (stack acc : List Nat) : Prop :=
  (acc ++ stack).Nodup ∧
    (∀ x ∈ acc ++ stack, InSubtree tags n x) ∧
    (∀ p ∈ acc, ∀ c ∈ childIds tags p, c ∈ acc ∨ c ∈ stack) ∧
    n ∈ acc ++ stack ∧
    (∀ c ∈ acc ++ stack, c = n ∨ ∃ p ∈ acc, parentOfNode tags c = some p)

/-- Three root tags at positions 0,1,2 — the minimal snapshot for the
same-parent "drop after the last sibling" scenario. -/
def rootTriple : List Tag :=
  [⟨1, "a", none, none, 0, 0⟩, ⟨2, "b", none, none, 1, 0⟩,
   ⟨3, "c", none, none, 2, 0⟩]

/-- Parents `P` (id 1) and `Q` (id 2) at root; `P` has children `a,b,c`
(ids 3,4,5 at positions 0,1,2), `Q` has children `d,e` (ids 6,7 at
positions 0,1) — the spec's cross-parent reindex scenario. -/
def crossDb : List Tag :=
  [⟨1, "P", none, none, 0, 0⟩, ⟨2, "Q", none, none, 1, 0⟩,
   ⟨3, "a", some 1, none, 0, 0⟩, ⟨4, "b", some 1, none, 1, 0⟩,
   ⟨5, "c", some 1, none, 2, 0⟩, ⟨6, "d", some 2, none, 0, 0⟩,
   ⟨7, "e", some 2, none, 1, 0⟩]

/-- A snapshot whose parent links form a 2-cycle (1 ↔ 2): pre-existing
corruption for the ancestor-walk termination analysis. -/
def cycNodes : List Node := [⟨1, some 2, 0⟩, ⟨2, some 1, 0⟩]

/-- `crossDb` after dropping `d` (id 6) onto `a` (id 3) in the middle band:
`move_tag 6 (some 3) 0` makes `d` the first child of `a`. -/
def crossDbChild : List Tag :=
  [⟨1, "P", none, none, 0, 0⟩, ⟨2, "Q", none, none, 1, 0⟩,
   ⟨3, "a", some 1, none, 0, 0⟩, ⟨4, "b", some 1, none, 1, 0⟩,
   ⟨5, "c", some 1, none, 2, 0⟩, ⟨6, "d", some 3, none, 0, 0⟩,
   ⟨7, "e", some 2, none, 0, 0⟩]

instance : IsTotal Node (fun a b => a.position ≤ b.position) :=
  ⟨fun a b => Int.le_total a.position b.position⟩

instance : IsTrans Node (fun a b => a.position ≤ b.position) :=
  ⟨fun _ _ _ hab hbc => le_trans hab hbc⟩

/-- `rootTriple` after `move_tag 1 none 3` (the "after the last sibling"
same-parent move): the shift closes the hole at 0 but the moved tag lands on
position 3, leaving the group positions `{0, 1, 3}`. -/
def rootTripleAfter : List Tag :=
  [⟨1, "a", none, none, 3, 0⟩, ⟨2, "b", none, none, 0, 0⟩,
   ⟨3, "c", none, none, 1, 0⟩]

/-- The table committed by the first statement of
`move_tag crossDb 4 (some 2) 1` (the moved-row `UPDATE`): `b` already sits in
`Q` at position 1, but neither group has been reindexed yet. -/
def crossDbPartial : List Tag :=
  [⟨1, "P", none, none, 0, 0⟩, ⟨2, "Q", none, none, 1, 0⟩,
   ⟨3, "a", some 1, none, 0, 0⟩, ⟨4, "b", some 2, none, 1, 0⟩,
   ⟨5, "c", some 1, none, 2, 0⟩, ⟨6, "d", some 2, none, 0, 0⟩,
   ⟨7, "e", some 2, none, 1, 0⟩]

/-- `crossDb` after `move_tag 4 (some 2) 1`: `P`'s remaining children `a, c`
reindexed to 0,1 and `Q`'s children `d, b, e` reindexed to 0,1,2. -/
def crossDbMovedB : List Tag :=
  [⟨1, "P", none, none, 0, 0⟩, ⟨2, "Q", none, none, 1, 0⟩,
   ⟨3, "a", some 1, none, 0, 0⟩, ⟨4, "b", some 2, none, 1, 0⟩,
   ⟨5, "c", some 1, none, 1, 0⟩, ⟨6, "d", some 2, none, 0, 0⟩,
   ⟨7, "e", some 2, none, 2, 0⟩]

/-- `crossDb` after `move_tag 3 (some 2) 1`. -/
def crossDbMovedA : List Tag :=
  [⟨1, "P", none, none, 0, 0⟩, ⟨2, "Q", none, none, 1, 0⟩,
   ⟨3, "a", some 2, none, 1, 0⟩, ⟨4, "b", some 1, none, 0, 0⟩,
   ⟨5, "c", some 1, none, 1, 0⟩, ⟨6, "d", some 2, none, 0, 0⟩,
   ⟨7, "e", some 2, none, 2, 0⟩]

/-- The `crossDb` table as the drag-drop snapshot: the projection performed by
`setup_drag_drop` before calling the library. -/
def crossNodes : List Node := crossDb.map toNode

/-- `crossDb` after `move_tag 5 (some 2) 1`. -/
def crossDbMovedC : List Tag :=
  [⟨1, "P", none, none, 0, 0⟩, ⟨2, "Q", none, none, 1, 0⟩,
   ⟨3, "a", some 1, none, 0, 0⟩, ⟨4, "b", some 1, none, 1, 0⟩,
   ⟨5, "c", some 2, none, 1, 0⟩, ⟨6, "d", some 2, none, 0, 0⟩,
   ⟨7, "e", some 2, none, 2, 0⟩]

/-- C1 — the dense-ordering invariant does NOT survive every valid `moveTag`:
starting from the fully dense table `rootTriple`, the drop action computed by
`compute_drop_action` for dragging tag 1 past the last sibling (tag 3, ratio
0.9, the "After" case, target position = 2 + 1 = 3) makes `move_tag` leave the
root group with positions `{0, 1, 3}` — a gap at 2, because the same-parent
branch never reindexes and the target position lies outside `0..count-1`. -/
theorem c1_density_violation :
    dense rootTriple ∧
    compute_drop_action 1 3 (mkRat 9 10) (rootTriple.map toNode) 10 =
      some (some (none, 3, "after")) ∧
    move_tag rootTriple 1 none 3 = some rootTripleAfter ∧
    groupPositions rootTripleAfter none = [0, 1, 3] ∧
    ¬ dense rootTripleAfter := by
  refine ⟨?_, by decide, by decide, by decide, fun h => absurd (h none) (by decide)⟩
  intro p
  cases p with
  | none => decide
  | some k => rfl

/-- C2 — `move_tag` is not atomic: it opens a raw connection and never starts
a transaction, so each `UPDATE` commits on its own.  For the cross-parent move
of tag 4 into parent 2 at position 1, the state committed by the very first
statement (`crossDbPartial`) differs from both the initial and the final
table: the old group `P` is left with the gapped positions `{0, 2}` and the
new group `Q` with the duplicate positions `{0, 1, 1}` — a partial shift a
crash would persist.  The last trace entry matches `move_tag`'s final state,
confirming the trace models the same statement sequence. -/
theorem c2_partial_commit :
    (moveTagTrace crossDb 4 (some 2) 1).head? = some crossDbPartial ∧
    crossDbPartial ≠ crossDb ∧
    move_tag crossDb 4 (some 2) 1 = some crossDbMovedB ∧
    crossDbPartial ≠ crossDbMovedB ∧
    groupPositions crossDbPartial (some 1) = [0, 2] ∧
    groupPositions crossDbPartial (some 2) = [0, 1, 1] ∧
    (moveTagTrace crossDb 4 (some 2) 1).getLast? = some crossDbMovedB := by
  decide

/-- C7 — cross-parent reindex: moving any one of `P`'s three children into
`Q` at position 1 reindexes `P`'s remaining children to 0,1 in their prior
relative order and `Q`'s three children to 0,1,2 with the moved child at 1
(the tie between the moved child and `e`, both at pre-reindex position 1, is
broken by table order). -/
theorem c7_cross_parent_reindex :
    (move_tag crossDb 4 (some 2) 1 = some crossDbMovedB ∧
      groupPositions crossDbMovedB (some 1) = [0, 1] ∧
      groupPositions crossDbMovedB (some 2) = [0, 1, 2] ∧
      (findTag crossDbMovedB 4).map (fun t => (t.parent_id, t.position)) =
        some (some 2, 1) ∧
      (findTag crossDbMovedB 3).map (fun t => t.position) = some 0 ∧
      (findTag crossDbMovedB 5).map (fun t => t.position) = some 1) ∧
    (move_tag crossDb 3 (some 2) 1 = some crossDbMovedA ∧
      groupPositions crossDbMovedA (some 1) = [0, 1] ∧
      groupPositions crossDbMovedA (some 2) = [0, 1, 2] ∧
      (findTag crossDbMovedA 3).map (fun t => (t.parent_id, t.position)) =
        some (some 2, 1) ∧
      (findTag crossDbMovedA 4).map (fun t => t.position) = some 0 ∧
      (findTag crossDbMovedA 5).map (fun t => t.position) = some 1) ∧
    (move_tag crossDb 5 (some 2) 1 = some crossDbMovedC ∧
      groupPositions crossDbMovedC (some 1) = [0, 1] ∧
      groupPositions crossDbMovedC (some 2) = [0, 1, 2] ∧
      (findTag crossDbMovedC 5).map (fun t => (t.parent_id, t.position)) =
        some (some 2, 1) ∧
      (findTag crossDbMovedC 3).map (fun t => t.position) = some 0 ∧
      (findTag crossDbMovedC 4).map (fun t => t.position) = some 1) := by
  decide

/-- C8 (counterexample) — the ancestor walk has NO step bound: on the 2-node
snapshot `cycNodes` whose parent links form a cycle not passing through the
dragged id 5, the `while let` loop of `is_descendant` is still running after
N = 2 iterations and still after 100 iterations (`none` = not yet returned),
so it does not "stop after at most N steps where N is the number of nodes". -/
theorem c8_counterexample :
    cycNodes.length = 2 ∧
    is_descendant cycNodes 5 1 2 = none ∧
    is_descendant cycNodes 5 1 100 = none := by
  decide

theorem iterAncestor_zero (g : Nat → Option Nat) (x : Nat) :
    iterAncestor g 0 x = some x := rfl

theorem iterAncestor_succ (g : Nat → Option Nat) (k x : Nat) :
    iterAncestor g (k + 1) x = (g x).bind (iterAncestor g k) := rfl

theorem iterAncestor_one (g : Nat → Option Nat) (x : Nat) :
    iterAncestor g 1 x = g x := by
  rw [iterAncestor_succ]
  cases g x <;> rfl

theorem iterAncestor_add (g : Nat → Option Nat) (m n x : Nat) :
    iterAncestor g (m + n) x = (iterAncestor g m x).bind (iterAncestor g n) := by
  induction m generalizing x with
  | zero => rw [Nat.zero_add]; rfl
  | succ m ih =>
    have h : m + 1 + n = m + n + 1 := by omega
    rw [h, iterAncestor_succ, iterAncestor_succ]
    cases g x with
    | none => rfl
    | some y =>
      rw [Option.some_bind, Option.some_bind]
      exact ih y

theorem iterAncestor_isSome_prefix (g : Nat → Option Nat) (m n x : Nat)
    (h : (iterAncestor g (m + n) x).isSome) : (iterAncestor g m x).isSome := by
  rw [iterAncestor_add] at h
  cases hm : iterAncestor g m x with
  | none => rw [hm] at h; simp at h
  | some v => simp

/-- Two distinct indices of a defined ancestor chain never carry the same
node when the links are acyclic. -/
theorem iter_inj (g : Nat → Option Nat) (hacyc : AcyclicLinks g) {x i j v : Nat}
    (hij : i < j) (hi : iterAncestor g i x = some v)
    (hj : iterAncestor g j x = some v) : False := by
  have h : j = i + (j - i) := by omega
  rw [h, iterAncestor_add, hi, Option.some_bind] at hj
  have hk : j - i = (j - i - 1) + 1 := by omega
  rw [hk] at hj
  exact hacyc v _ hj

/-- Pigeonhole core: a chain of acyclic links whose every step lies in the
finite list `S` cannot stay defined for `S.length + 1` steps. -/
theorem no_defined_chain (g : Nat → Option Nat) (S : List Nat)
    (hacyc : AcyclicLinks g) (hdom : ∀ v p, g v = some p → v ∈ S) (x : Nat)
    (hdef : ∀ i, i ≤ S.length + 1 → (iterAncestor g i x).isSome) : False := by
  have hval : ∀ i, i ≤ S.length + 1 →
      iterAncestor g i x = some ((iterAncestor g i x).getD 0) := by
    intro i hi
    obtain ⟨v, hv⟩ := Option.isSome_iff_exists.mp (hdef i hi)
    rw [hv]
    rfl
  have hmemS : ∀ i, i ≤ S.length → (iterAncestor g i x).getD 0 ∈ S := by
    intro i hi
    have h1 := hval i (by omega)
    have h2 := hdef (i + 1) (by omega)
    rw [iterAncestor_add g i 1, h1, Option.some_bind, iterAncestor_one] at h2
    obtain ⟨p, hp⟩ := Option.isSome_iff_exists.mp h2
    exact hdom _ p hp
  have hnodup : ((List.range (S.length + 1)).map
      (fun i => (iterAncestor g i x).getD 0)).Nodup := by
    refine List.Nodup.map_on ?_ (List.nodup_range _)
    intro i hi j hj hfeq
    rw [List.mem_range] at hi hj
    by_contra hne
    rcases Nat.lt_or_ge i j with hlt | hge
    · exact iter_inj g hacyc hlt (hval i (by omega))
        (hfeq ▸ hval j (by omega))
    · have hlt : j < i := by omega
      exact iter_inj g hacyc hlt (hval j (by omega))
        (hfeq ▸ hval i (by omega))
  have hsub : ((List.range (S.length + 1)).map
      (fun i => (iterAncestor g i x).getD 0)).toFinset ⊆ S.toFinset := by
    intro a ha
    rw [List.mem_toFinset, List.mem_map] at ha
    obtain ⟨i, hi, rfl⟩ := ha
    rw [List.mem_range] at hi
    rw [List.mem_toFinset]
    exact hmemS i (by omega)
  have h1 := List.toFinset_card_of_nodup hnodup
  have h2 := Finset.card_le_card hsub
  have h3 := List.toFinset_card_le S
  have h4 : ((List.range (S.length + 1)).map
      (fun i => (iterAncestor g i x).getD 0)).length = S.length + 1 := by
    rw [List.length_map, List.length_range]
  omega

/-- A walk that has not returned within `fuel` iterations has a defined
ancestor chain of length `fuel`. -/
theorem walk_none_defined (tags : List Node) (a : Nat) :
    ∀ fuel y, walk tags a fuel (some y) = none →
      ∀ i ≤ fuel, (iterAncestor (parentOfNode tags) i y).isSome := by
  intro fuel
  induction fuel with
  | zero =>
    intro y _ i hi
    have h0 : i = 0 := Nat.le_zero.mp hi
    subst h0
    rfl
  | succ fuel ih =>
    intro y hw i hi
    by_cases hya : y = a
    · simp [walk, hya] at hw
    · rw [show walk tags a (fuel + 1) (some y) =
          if y = a then some true else walk tags a fuel (parentOfNode tags y)
          from rfl, if_neg hya] at hw
      cases hp : parentOfNode tags y with
      | none => rw [hp] at hw; simp [walk] at hw
      | some z =>
        rw [hp] at hw
        cases i with
        | zero => rfl
        | succ i =>
          rw [iterAncestor_succ, hp, Option.some_bind]
          exact ih z hw i (by omega)

/-- If the walk returns `true`, the ancestor chain from the start reaches the
queried ancestor. -/
theorem walk_true_reaches (tags : List Node) (a : Nat) :
    ∀ fuel y, walk tags a fuel (some y) = some true →
      ∃ i, iterAncestor (parentOfNode tags) i y = some a := by
  intro fuel
  induction fuel with
  | zero => intro y hw; exact absurd hw (by simp [walk])
  | succ fuel ih =>
    intro y hw
    by_cases hya : y = a
    · exact ⟨0, by rw [iterAncestor_zero, hya]⟩
    · rw [show walk tags a (fuel + 1) (some y) =
          if y = a then some true else walk tags a fuel (parentOfNode tags y)
          from rfl, if_neg hya] at hw
      cases hp : parentOfNode tags y with
      | none => rw [hp] at hw; simp [walk] at hw
      | some z =>
        rw [hp] at hw
        obtain ⟨i, hiz⟩ := ih z hw
        exact ⟨i + 1, by rw [iterAncestor_succ, hp, Option.some_bind]; exact hiz⟩

/-- If the walk returns `false`, the ancestor chain from the start never
passes through the queried ancestor. -/
theorem walk_false_avoids (tags : List Node) (a : Nat) :
    ∀ fuel y, walk tags a fuel (some y) = some false →
      AvoidsNode (parentOfNode tags) a y := by
  intro fuel
  induction fuel with
  | zero => intro y hw; exact absurd hw (by simp [walk])
  | succ fuel ih =>
    intro y hw i v hv
    by_cases hya : y = a
    · simp [walk, hya] at hw
    · rw [show walk tags a (fuel + 1) (some y) =
          if y = a then some true else walk tags a fuel (parentOfNode tags y)
          from rfl, if_neg hya] at hw
      cases hp : parentOfNode tags y with
      | none =>
        cases i with
        | zero =>
          rw [iterAncestor_zero] at hv
          cases hv
          exact hya
        | succ i =>
          rw [iterAncestor_succ, hp] at hv
          cases hv
      | some z =>
        rw [hp] at hw
        cases i with
        | zero =>
          rw [iterAncestor_zero] at hv
          cases hv
          exact hya
        | succ i =>
          rw [iterAncestor_succ, hp, Option.some_bind] at hv
          exact ih z hw i v hv

/-- Every step of `parentOfNode` starts from a node present in the snapshot. -/
theorem parentOfNode_dom (tags : List Node) (v p : Nat)
    (h : parentOfNode tags v = some p) : v ∈ tags.map (fun t => t.id) := by
  unfold parentOfNode at h
  cases hf : tags.find? (fun t => decide (t.id = v)) with
  | none => rw [hf] at h; cases h
  | some t =>
    have hmem := List.mem_of_find?_eq_some hf
    have hpred := List.find?_some hf
    rw [decide_eq_true_eq] at hpred
    rw [List.mem_map]
    exact ⟨t, hmem, hpred⟩

/-- On an acyclic snapshot the ancestor walk always returns within
`node count + 2` iterations. -/
theorem walk_adequacy (tags : List Node) (a y : Nat)
    (hacyc : AcyclicLinks (parentOfNode tags)) :
    (walk tags a (tags.length + 2) (some y)).isSome := by
  by_contra h
  rw [Option.not_isSome_iff_eq_none] at h
  have hdef := walk_none_defined tags a (tags.length + 2) y h
  refine no_defined_chain (parentOfNode tags) (tags.map (fun t => t.id)) hacyc
    (parentOfNode_dom tags) y ?_
  intro i hi
  rw [List.length_map] at hi
  exact hdef i (by omega)

/-- On an acyclic snapshot, a start whose chain avoids the ancestor makes the
walk return `false`. -/
theorem walk_false_of_avoids (tags : List Node) (a y : Nat)
    (hacyc : AcyclicLinks (parentOfNode tags))
    (hav : AvoidsNode (parentOfNode tags) a y) :
    walk tags a (tags.length + 2) (some y) = some false := by
  have hs := walk_adequacy tags a y hacyc
  obtain ⟨b, hb⟩ := Option.isSome_iff_exists.mp hs
  cases b with
  | true =>
    obtain ⟨i, hi⟩ := walk_true_reaches tags a _ y hb
    exact absurd rfl (hav i a hi)
  | false => exact hb

/-- Sufficient decidable criterion for acyclicity: from every listed node the
ancestor chain dies out within `S.length + 1` steps. -/
theorem acyclic_of_chains_exit (g : Nat → Option Nat) (S : List Nat)
    (hdom : ∀ v p, g v = some p → v ∈ S)
    (h : ∀ x ∈ S, iterAncestor g (S.length + 1) x = none) : AcyclicLinks g := by
  intro x k hcyc
  have hxS : x ∈ S := by
    rw [iterAncestor_succ] at hcyc
    cases hg : g x with
    | none => rw [hg] at hcyc; cases hcyc
    | some p => exact hdom x p hg
  have hmul : ∀ m, iterAncestor g ((k + 1) * m) x = some x := by
    intro m
    induction m with
    | zero => rfl
    | succ m ih =>
      have he : (k + 1) * (m + 1) = (k + 1) * m + (k + 1) := by ring
      rw [he, iterAncestor_add, ih, Option.some_bind]
      exact hcyc
  have hbig : S.length + 1 ≤ (k + 1) * (S.length + 1) := by
    calc S.length + 1 = 1 * (S.length + 1) := (one_mul _).symm
      _ ≤ (k + 1) * (S.length + 1) := Nat.mul_le_mul_right _ (by omega)
  have hdefined : (iterAncestor g (S.length + 1) x).isSome := by
    have hm := hmul (S.length + 1)
    have heq : (k + 1) * (S.length + 1) =
        (S.length + 1) + ((k + 1) * (S.length + 1) - (S.length + 1)) := by omega
    rw [heq] at hm
    exact iterAncestor_isSome_prefix g _ _ x (by rw [hm]; rfl)
  rw [h x hxS] at hdefined
  cases hdefined

/-- The decidable acyclicity criterion, specialised to a drag-drop snapshot. -/
theorem acyclicNodes_of_chains_exit (tags : List Node)
    (h : ∀ x ∈ tags.map (fun t => t.id),
      iterAncestor (parentOfNode tags) (tags.length + 1) x = none) :
    AcyclicLinks (parentOfNode tags) := by
  refine acyclic_of_chains_exit (parentOfNode tags) (tags.map (fun t => t.id))
    (parentOfNode_dom tags) ?_
  intro x hx
  rw [List.length_map]
  exact h x hx

/-- C8 (amended) — the ancestor walk stops on reaching the dragged id or on
walking off a root, and whenever the snapshot's parent links are acyclic this
happens within `node count + 2` loop iterations; the code contains no N-step
cap, so on a snapshot with a parent cycle not through the dragged id the loop
never returns (see the counterexample). -/
theorem c8_walk_terminates_acyclic (tags : List Node) (dragged target : Nat)
    (hacyc : AcyclicLinks (parentOfNode tags)) :
    (is_descendant tags dragged target (tags.length + 2)).isSome :=
  walk_adequacy tags dragged target hacyc

theorem c8_walk_terminates_acyclic_witness :
    (is_descendant crossNodes 5 3 (crossNodes.length + 2)).isSome :=
  c8_walk_terminates_acyclic crossNodes 5 3
    (acyclicNodes_of_chains_exit crossNodes (by decide))

/-- A finished walk returning `false` certifies that the target is not the
dragged node nor one of its descendants. -/
theorem not_descendant_of_walk_false (tags : List Node) (a y fuel : Nat)
    (h : walk tags a fuel (some y) = some false) : ¬ DescendantOf tags a y :=
  fun hd =>
    match hd with
    | ⟨i, hi⟩ => walk_false_avoids tags a fuel y h i a hi rfl

/-- C4 — DropClassifier position rule: with an existing target `T` that is
neither the dragged node nor one of its descendants, the computed drop action
is `(T.parent_id, T.position)` below ratio 0.25 (same pair for the
same-parent and cross-parent variants), `(T.parent_id, T.position + 1)` above
0.75, and `(Some T.id, 0)` in the middle band. -/
theorem c4_drop_classifier (tags : List Node) (dragged_id target_id : Nat)
    (r : ℚ) (T : Node)
    (hacyc : AcyclicLinks (parentOfNode tags))
    (hT : tags.find? (fun t => decide (t.id = target_id)) = some T)
    (hne : target_id ≠ dragged_id)
    (hnd : ¬ DescendantOf tags dragged_id target_id) :
    (r < mkRat 1 4 →
      ∃ a, compute_drop_action dragged_id target_id r tags (tags.length + 2) =
          some (some (T.parent_id, T.position, a)) ∧
        (a = "before-same-parent" ∨ a = "before")) ∧
    (mkRat 3 4 < r →
      compute_drop_action dragged_id target_id r tags (tags.length + 2) =
        some (some (T.parent_id, T.position + 1, "after"))) ∧
    (mkRat 1 4 ≤ r → r ≤ mkRat 3 4 →
      compute_drop_action dragged_id target_id r tags (tags.length + 2) =
        some (some (some T.id, 0, "child"))) := by
  have hav : AvoidsNode (parentOfNode tags) dragged_id target_id := by
    intro i v hv hvd
    exact hnd ⟨i, hvd ▸ hv⟩
  have hwalk : is_descendant tags dragged_id target_id (tags.length + 2) =
      some false :=
    walk_false_of_avoids tags dragged_id target_id hacyc hav
  have hdt : ¬ (dragged_id = target_id) := fun h => hne h.symm
  have hmain : compute_drop_action dragged_id target_id r tags (tags.length + 2) =
      if r < mkRat 1 4 then
        if T.parent_id =
            (tags.find? (fun t => decide (t.id = dragged_id))).bind
              (fun t => t.parent_id) then
          some (some (T.parent_id, T.position, "before-same-parent"))
        else
          some (some (T.parent_id, T.position, "before"))
      else if mkRat 3 4 < r then
        some (some (T.parent_id, T.position + 1, "after"))
      else
        some (some (some T.id, 0, "child")) := by
    unfold compute_drop_action
    rw [if_neg hdt, hwalk, hT]
  refine ⟨?_, ?_, ?_⟩
  · intro hr
    rw [hmain, if_pos hr]
    by_cases hp : T.parent_id =
        (tags.find? (fun t => decide (t.id = dragged_id))).bind
          (fun t => t.parent_id)
    · rw [if_pos hp]
      exact ⟨_, rfl, Or.inl rfl⟩
    · rw [if_neg hp]
      exact ⟨_, rfl, Or.inr rfl⟩
  · intro hr
    have hq : mkRat 1 4 < mkRat 3 4 := by decide
    rw [hmain, if_neg (not_lt.mpr (le_of_lt (lt_trans hq hr))), if_pos hr]
  · intro hr1 hr2
    rw [hmain, if_neg (not_lt.mpr hr1), if_neg (not_lt.mpr hr2)]

theorem c4_drop_classifier_witness :
    (mkRat 1 2 < mkRat 1 4 →
      ∃ a, compute_drop_action 6 3 (mkRat 1 2) crossNodes (crossNodes.length + 2) =
          some (some ((⟨3, some 1, 0⟩ : Node).parent_id,
            (⟨3, some 1, 0⟩ : Node).position, a)) ∧
        (a = "before-same-parent" ∨ a = "before")) ∧
    (mkRat 3 4 < mkRat 1 2 →
      compute_drop_action 6 3 (mkRat 1 2) crossNodes (crossNodes.length + 2) =
        some (some ((⟨3, some 1, 0⟩ : Node).parent_id,
          (⟨3, some 1, 0⟩ : Node).position + 1, "after"))) ∧
    (mkRat 1 4 ≤ mkRat 1 2 → mkRat 1 2 ≤ mkRat 3 4 →
      compute_drop_action 6 3 (mkRat 1 2) crossNodes (crossNodes.length + 2) =
        some (some (some (⟨3, some 1, 0⟩ : Node).id, 0, "child"))) :=
  c4_drop_classifier crossNodes 6 3 (mkRat 1 2) ⟨3, some 1, 0⟩
    (acyclicNodes_of_chains_exit crossNodes (by decide)) (by decide) (by decide)
    (not_descendant_of_walk_false crossNodes 6 3 100 (by decide))

/-- C6 — the classifier returns `None` exactly when the target is the dragged
node or one of its descendants; in every other case it returns `Some`, and a
target id absent from the snapshot falls back to the root drop
`(None, 0, "root")`. -/
theorem c6_reject_iff (tags : List Node) (dragged_id target_id : Nat) (r : ℚ)
    (hacyc : AcyclicLinks (parentOfNode tags)) :
    (compute_drop_action dragged_id target_id r tags (tags.length + 2)).isSome ∧
    (compute_drop_action dragged_id target_id r tags (tags.length + 2) =
        some none ↔
      (target_id = dragged_id ∨ DescendantOf tags dragged_id target_id)) ∧
    (target_id ∉ tags.map (fun t => t.id) → target_id ≠ dragged_id →
      compute_drop_action dragged_id target_id r tags (tags.length + 2) =
        some (some (none, 0, "root"))) := by
  by_cases hdt : dragged_id = target_id
  · have hc : compute_drop_action dragged_id target_id r tags (tags.length + 2) =
        some none := by
      unfold compute_drop_action
      rw [if_pos hdt]
    refine ⟨by rw [hc]; rfl, by rw [hc]; simp [hdt.symm], ?_⟩
    intro _ hne
    exact absurd hdt.symm hne
  · have hs := walk_adequacy tags dragged_id target_id hacyc
    obtain ⟨b, hb⟩ := Option.isSome_iff_exists.mp hs
    cases b with
    | true =>
      have hc : compute_drop_action dragged_id target_id r tags (tags.length + 2) =
          some none := by
        unfold compute_drop_action
        rw [if_neg hdt, show is_descendant tags dragged_id target_id
          (tags.length + 2) = some true from hb]
      obtain ⟨i, hi⟩ := walk_true_reaches tags dragged_id _ target_id hb
      refine ⟨by rw [hc]; rfl,
        by rw [hc]; exact ⟨fun _ => Or.inr ⟨i, hi⟩, fun _ => rfl⟩, ?_⟩
      intro hnm _
      exfalso
      cases i with
      | zero =>
        rw [iterAncestor_zero] at hi
        cases hi
        exact hdt rfl
      | succ i =>
        rw [iterAncestor_succ] at hi
        cases hp : parentOfNode tags target_id with
        | none => rw [hp] at hi; cases hi
        | some z => exact hnm (parentOfNode_dom tags target_id z hp)
    | false =>
      have hav := walk_false_avoids tags dragged_id _ target_id hb
      have hnd : ¬ DescendantOf tags dragged_id target_id := by
        intro hd
        obtain ⟨i, hi⟩ := hd
        exact hav i dragged_id hi rfl
      cases hf : tags.find? (fun t => decide (t.id = target_id)) with
      | some T =>
        have hc : compute_drop_action dragged_id target_id r tags
            (tags.length + 2) =
            if r < mkRat 1 4 then
              if T.parent_id =
                  (tags.find? (fun t => decide (t.id = dragged_id))).bind
                    (fun t => t.parent_id) then
                some (some (T.parent_id, T.position, "before-same-parent"))
              else
                some (some (T.parent_id, T.position, "before"))
            else if mkRat 3 4 < r then
              some (some (T.parent_id, T.position + 1, "after"))
            else
              some (some (some T.id, 0, "child")) := by
          unfold compute_drop_action
          rw [if_neg hdt, show is_descendant tags dragged_id target_id
            (tags.length + 2) = some false from hb, hf]
        refine ⟨?_, ?_, ?_⟩
        · rw [hc]
          split_ifs <;> rfl
        · rw [hc]
          constructor
          · intro h
            exfalso
            revert h
            split_ifs <;> intro h <;> cases h
          · intro h
            exfalso
            rcases h with h | h
            · exact hdt h.symm
            · exact hnd h
        · intro hnm _
          exfalso
          have hTm := List.mem_of_find?_eq_some hf
          have hTid := List.find?_some hf
          rw [decide_eq_true_eq] at hTid
          exact hnm (List.mem_map.mpr ⟨T, hTm, hTid⟩)
      | none =>
        have hc : compute_drop_action dragged_id target_id r tags
            (tags.length + 2) = some (some (none, 0, "root")) := by
          unfold compute_drop_action
          rw [if_neg hdt, show is_descendant tags dragged_id target_id
            (tags.length + 2) = some false from hb, hf]
        refine ⟨by rw [hc]; rfl, ?_, fun _ _ => hc⟩
        rw [hc]
        constructor
        · intro h
          cases h
        · intro h
          exfalso
          rcases h with h | h
          · exact hdt h.symm
          · exact hnd h

theorem clamp01_eq (r : ℚ) (h0 : 0 ≤ r) (h1 : r ≤ 1) : clamp01 r = r := by
  unfold clamp01
  rw [max_eq_left h0, min_eq_left h1]

/-- `find?` on a position-sorted list returns an element of minimal position
among those beyond the cutoff. -/
theorem find?_sorted_min (l : List Node) (c : Int) (nxt : Node)
    (hsort : List.Sorted (fun a b : Node => a.position ≤ b.position) l)
    (hfind : l.find? (fun t => decide (c < t.position)) = some nxt) :
    nxt ∈ l ∧ c < nxt.position ∧
      ∀ u ∈ l, c < u.position → nxt.position ≤ u.position := by
  have hmem := List.mem_of_find?_eq_some hfind
  have hp := List.find?_some hfind
  rw [decide_eq_true_eq] at hp
  refine ⟨hmem, hp, ?_⟩
  rw [List.find?_eq_some] at hfind
  obtain ⟨-, as, bs, hsplit, hbefore⟩ := hfind
  intro u hu hcu
  rw [hsplit] at hu hsort
  rcases List.mem_append.mp hu with hu | hu
  · exfalso
    have := hbefore u hu
    rw [Bool.not_eq_eq_eq_not, Bool.not_true, decide_eq_false_iff_not] at this
    exact this hcu
  · rcases List.mem_cons.mp hu with rfl | hu
    · exact le_refl _
    · have h2 := (List.pairwise_append.mp hsort).2.1
      exact (List.pairwise_cons.mp h2).1 u hu

/-- C5 — HoverResolver: in the bottom zone the target snaps to the
position-least later sibling with ratio 0, or stays unchanged when hovering
the last sibling; the top zone snaps the ratio to 0; the middle band passes
target and ratio through unchanged. -/
theorem c5_hover_resolver (tags : List Node) (current : Node) (raw : ℚ)
    (h0 : 0 ≤ raw) (h1 : raw ≤ 1) :
    (mkRat 3 4 < raw →
      (∃ u ∈ tags, u.parent_id = current.parent_id ∧
        current.position < u.position) →
      ∃ nxt ∈ tags, nxt.parent_id = current.parent_id ∧
        current.position < nxt.position ∧
        (∀ v ∈ tags, v.parent_id = current.parent_id →
          current.position < v.position → nxt.position ≤ v.position) ∧
        unify_hover_target tags current raw = (nxt.id, 0)) ∧
    (mkRat 3 4 < raw →
      (∀ u ∈ tags, u.parent_id = current.parent_id →
        ¬ current.position < u.position) →
      unify_hover_target tags current raw = (current.id, raw)) ∧
    (raw < mkRat 1 4 → unify_hover_target tags current raw = (current.id, 0)) ∧
    (mkRat 1 4 ≤ raw → raw ≤ mkRat 3 4 →
      unify_hover_target tags current raw = (current.id, raw)) := by
  have hpos : clamp01 raw = raw := clamp01_eq raw h0 h1
  have hsort : List.Sorted (fun a b : Node => a.position ≤ b.position)
      (sortByPosition (tags.filter (fun t => decide (t.parent_id = current.parent_id)))) :=
    List.sorted_insertionSort _ _
  have hperm :
      ∀ u, u ∈ sortByPosition (tags.filter (fun t => decide (t.parent_id = current.parent_id))) ↔
        u ∈ tags.filter (fun t => decide (t.parent_id = current.parent_id)) :=
    fun u => (List.perm_insertionSort _ _).mem_iff
  refine ⟨?_, ?_, ?_, ?_⟩
  · intro hr hex
    obtain ⟨u, hu, hup, hupos⟩ := hex
    have husorted : u ∈ sortByPosition
        (tags.filter (fun t => decide (t.parent_id = current.parent_id))) :=
      (hperm u).mpr (List.mem_filter.mpr ⟨hu, by rw [decide_eq_true_eq]; exact hup⟩)
    have hfs : ((sortByPosition
        (tags.filter (fun t => decide (t.parent_id = current.parent_id)))).find?
          (fun t => decide (current.position < t.position))).isSome := by
      rw [List.find?_isSome]
      exact ⟨u, husorted, by rw [decide_eq_true_eq]; exact hupos⟩
    obtain ⟨nxt, hfind⟩ := Option.isSome_iff_exists.mp hfs
    obtain ⟨hnmem, hnpos, hnmin⟩ := find?_sorted_min _ _ nxt hsort hfind
    have hnfilter := (hperm nxt).mp hnmem
    have hnt := List.mem_filter.mp hnfilter
    refine ⟨nxt, hnt.1, ?_, hnpos, ?_, ?_⟩
    · have := hnt.2
      rwa [decide_eq_true_eq] at this
    · intro v hv hvp hvpos
      exact hnmin v ((hperm v).mpr
        (List.mem_filter.mpr ⟨hv, by rw [decide_eq_true_eq]; exact hvp⟩)) hvpos
    · simp only [unify_hover_target]
      rw [hpos, if_pos hr, hfind]
  · intro hr hnone
    have hfind : (sortByPosition
        (tags.filter (fun t => decide (t.parent_id = current.parent_id)))).find?
          (fun t => decide (current.position < t.position)) = none := by
      rw [List.find?_eq_none]
      intro u hu
      have hf := List.mem_filter.mp ((hperm u).mp hu)
      simp only [decide_eq_true_eq]
      exact hnone u hf.1 (by have := hf.2; rwa [decide_eq_true_eq] at this)
    simp only [unify_hover_target]
    rw [hpos, if_pos hr, hfind]
  · intro hr
    have hq : mkRat 1 4 < mkRat 3 4 := by decide
    simp only [unify_hover_target]
    rw [hpos, if_neg (not_lt.mpr (le_of_lt (lt_trans hr hq))), if_pos hr]
  · intro hr1 hr2
    simp only [unify_hover_target]
    rw [hpos, if_neg (not_lt.mpr hr2), if_neg (not_lt.mpr hr1)]

theorem c5_hover_resolver_witness :
    ((mkRat 3 4 < mkRat 9 10 →
      (∃ u ∈ crossNodes, u.parent_id = (⟨3, some 1, 0⟩ : Node).parent_id ∧
        (⟨3, some 1, 0⟩ : Node).position < u.position) →
      ∃ nxt ∈ crossNodes, nxt.parent_id = (⟨3, some 1, 0⟩ : Node).parent_id ∧
        (⟨3, some 1, 0⟩ : Node).position < nxt.position ∧
        (∀ v ∈ crossNodes, v.parent_id = (⟨3, some 1, 0⟩ : Node).parent_id →
          (⟨3, some 1, 0⟩ : Node).position < v.position →
            nxt.position ≤ v.position) ∧
        unify_hover_target crossNodes ⟨3, some 1, 0⟩ (mkRat 9 10) = (nxt.id, 0)) ∧
    (mkRat 3 4 < mkRat 9 10 →
      (∀ u ∈ crossNodes, u.parent_id = (⟨3, some 1, 0⟩ : Node).parent_id →
        ¬ (⟨3, some 1, 0⟩ : Node).position < u.position) →
      unify_hover_target crossNodes ⟨3, some 1, 0⟩ (mkRat 9 10) =
        ((⟨3, some 1, 0⟩ : Node).id, mkRat 9 10)) ∧
    (mkRat 9 10 < mkRat 1 4 →
      unify_hover_target crossNodes ⟨3, some 1, 0⟩ (mkRat 9 10) =
        ((⟨3, some 1, 0⟩ : Node).id, 0)) ∧
    (mkRat 1 4 ≤ mkRat 9 10 → mkRat 9 10 ≤ mkRat 3 4 →
      unify_hover_target crossNodes ⟨3, some 1, 0⟩ (mkRat 9 10) =
        ((⟨3, some 1, 0⟩ : Node).id, mkRat 9 10))) :=
  c5_hover_resolver crossNodes ⟨3, some 1, 0⟩ (mkRat 9 10) (by decide) (by decide)

theorem c6_reject_iff_witness :
    (compute_drop_action 6 3 (mkRat 1 2) crossNodes (crossNodes.length + 2)).isSome ∧
    (compute_drop_action 6 3 (mkRat 1 2) crossNodes (crossNodes.length + 2) =
        some none ↔ (3 = 6 ∨ DescendantOf crossNodes 6 3)) ∧
    (3 ∉ crossNodes.map (fun t => t.id) → 3 ≠ 6 →
      compute_drop_action 6 3 (mkRat 1 2) crossNodes (crossNodes.length + 2) =
        some (some (none, 0, "root"))) :=
  c6_reject_iff crossNodes 6 3 (mkRat 1 2)
    (acyclicNodes_of_chains_exit crossNodes (by decide))

theorem forall₂_comp {α : Type} {R S T : α → α → Prop}
    (h : ∀ a b c, R a b → S b c → T a c) :
    ∀ {l1 l2 l3 : List α}, List.Forall₂ R l1 l2 → List.Forall₂ S l2 l3 →
      List.Forall₂ T l1 l3 := by
  intro l1 l2 l3 h12
  induction h12 generalizing l3 with
  | nil => intro h23; cases h23; exact .nil
  | cons hR _ ih =>
    intro h23
    cases h23 with
    | cons hS hl => exact .cons (h _ _ _ hR hS) (ih hl)

theorem forall₂_map_right {α : Type} {R : α → α → Prop} (ψ : α → α)
    (h : ∀ a b, R a b → R a (ψ b)) {l1 l2 : List α}
    (h12 : List.Forall₂ R l1 l2) : List.Forall₂ R l1 (l2.map ψ) := by
  induction h12 with
  | nil => exact .nil
  | cons hR _ ih => exact .cons (h _ _ hR) ih

theorem forall₂_map_self {α : Type} {R : α → α → Prop} (φ : α → α) {l : List α}
    (h : ∀ a ∈ l, R a (φ a)) : List.Forall₂ R l (l.map φ) := by
  induction l with
  | nil => exact .nil
  | cons a l ih =>
    exact .cons (h a (List.mem_cons_self a l))
      (ih (fun x hx => h x (List.mem_cons_of_mem a hx)))

theorem forall₂_ids_eq {R : Tag → Tag → Prop}
    (hid : ∀ a b, R a b → b.id = a.id) {l1 l2 : List Tag}
    (h : List.Forall₂ R l1 l2) :
    l2.map (fun t => t.id) = l1.map (fun t => t.id) := by
  induction h with
  | nil => rfl
  | cons hR _ ih => simp [List.map_cons, hid _ _ hR, ih]

/-- The per-row `UPDATE` loop of `reorder_tags_in_parent` only touches rows
of the selected parent group (the membership predicate is by id, so unique
ids are required). -/
theorem foldl_update_frame (db : List Tag) (p : Option Nat)
    (hnd : (db.map (fun t => t.id)).Nodup) (L : List (Nat × Nat))
    (hL : ∀ q ∈ L, ∃ u ∈ db, u.id = q.2 ∧ u.parent_id = p) :
    ∀ s, List.Forall₂ (fun t u => t ∈ db ∧ ReorderRel p t u) db s →
      List.Forall₂ (fun t u => t ∈ db ∧ ReorderRel p t u) db
        (L.foldl (fun s q => updateById s q.2 (setPosition q.1)) s) := by
  induction L with
  | nil => intro s hs; exact hs
  | cons q L ih =>
    intro s hs
    rw [List.foldl_cons]
    refine ih (fun q' hq' => hL q' (List.mem_cons_of_mem q hq')) _ ?_
    unfold updateById
    refine forall₂_map_right _ ?_ hs
    rintro a b ⟨hadb, hid, hname, hcolor, hcreated, hparent, huntouched⟩
    by_cases hbq : b.id = q.2
    · rw [if_pos hbq]
      refine ⟨hadb, hid, hname, hcolor, hcreated, hparent, ?_⟩
      intro hap
      exfalso
      obtain ⟨u, hu, huid, hup⟩ := hL q (List.mem_cons_self q L)
      have hau : a = u :=
        List.inj_on_of_nodup_map hnd hadb hu (by rw [← hid, hbq, huid])
      exact hap (hau ▸ hup)
    · rw [if_neg hbq]
      exact ⟨hadb, hid, hname, hcolor, hcreated, hparent, huntouched⟩

/-- Frame property of one `reorder_tags_in_parent` call. -/
theorem reorder_frame (db : List Tag) (p : Option Nat)
    (hnd : (db.map (fun t => t.id)).Nodup) :
    List.Forall₂ (ReorderRel p) db (reorder_tags_in_parent db p) := by
  have hL : ∀ q ∈ (reorderIds db p).enum, ∃ u ∈ db, u.id = q.2 ∧ u.parent_id = p := by
    intro q hq
    have h2 : q.2 ∈ reorderIds db p := by
      rw [List.enum_eq_zip_range] at hq
      exact (List.of_mem_zip hq).2
    unfold reorderIds at h2
    rw [List.mem_map] at h2
    obtain ⟨u, hu, huid⟩ := h2
    have hu2 : u ∈ db.filter (fun t => decide (t.parent_id = p)) :=
      (List.perm_insertionSort _ _).mem_iff.mp hu
    have hu3 := List.mem_filter.mp hu2
    exact ⟨u, hu3.1, huid, by have := hu3.2; rwa [decide_eq_true_eq] at this⟩
  have hinit : List.Forall₂ (fun t u => t ∈ db ∧ ReorderRel p t u) db db := by
    rw [List.forall₂_same]
    intro a ha
    exact ⟨ha, rfl, rfl, rfl, rfl, rfl, fun _ => rfl⟩
  have := foldl_update_frame db p hnd ((reorderIds db p).enum) hL db hinit
  unfold reorder_tags_in_parent
  exact List.Forall₂.imp (fun a b h => h.2) this

theorem moveRel_comp (i : Nat) (oldP np : Option Nat) (a b c : Tag)
    (hab : MoveRel i oldP np a b) (hbc : MoveRel i oldP np b c) :
    MoveRel i oldP np a c := by
  obtain ⟨hid, hname, hcolor, hcreated, hparent, hfr⟩ := hab
  obtain ⟨hid', hname', hcolor', hcreated', hparent', hfr'⟩ := hbc
  refine ⟨by rw [hid', hid], by rw [hname', hname], by rw [hcolor', hcolor],
    by rw [hcreated', hcreated], ?_, ?_⟩
  · intro hai
    rw [hparent' (by rw [hid]; exact hai), hparent hai]
  · intro hai hop hnp
    have hba := hfr hai hop hnp
    rw [hba] at hfr'
    exact hfr' hai hop hnp

theorem reorderRel_moveRel (i : Nat) (oldP np : Option Nat) (p : Option Nat)
    (hp : p = oldP ∨ p = np) (t u : Tag) (h : ReorderRel p t u) :
    MoveRel i oldP np t u := by
  obtain ⟨hid, hname, hcolor, hcreated, hparent, hfr⟩ := h
  refine ⟨hid, hname, hcolor, hcreated, fun _ => hparent, ?_⟩
  intro _ hop hnp
  rcases hp with rfl | rfl
  · exact hfr hop
  · exact hfr hnp

/-- Frame property of `move_tag`, as a row-for-row correspondence. -/
theorem move_tag_frame (db : List Tag) (i : Nat) (np : Option Nat) (tp : Int)
    (row : Tag) (db' : List Tag)
    (hnd : (db.map (fun t => t.id)).Nodup)
    (hrow : findTag db i = some row)
    (hm : move_tag db i np tp = some db') :
    db'.length = db.length ∧
      List.Forall₂ (MoveRel i row.parent_id np) db db' := by
  unfold move_tag at hm
  rw [hrow] at hm
  dsimp only at hm
  have hshift : List.Forall₂ (MoveRel i row.parent_id np) db
      (if row.parent_id = np then
        if row.position < tp then shiftForward db np row.position tp i
        else if tp < row.position then shiftBackward db np tp row.position i
        else db
      else db) := by
    have hid : ∀ φ : Tag → Tag,
        (∀ t, (φ t).id = t.id ∧ (φ t).name = t.name ∧ (φ t).color = t.color ∧
          (φ t).created_at = t.created_at ∧ (φ t).parent_id = t.parent_id ∧
          (t.parent_id ≠ np → φ t = t)) →
        List.Forall₂ (MoveRel i row.parent_id np) db (db.map φ) := by
      intro φ hφ
      refine forall₂_map_self φ ?_
      intro a _
      obtain ⟨h1, h2, h3, h4, h5, h6⟩ := hφ a
      exact ⟨h1, h2, h3, h4, fun _ => h5, fun _ _ hnp => h6 hnp⟩
    split_ifs with h1 h2 h3
    · unfold shiftForward
      refine hid _ ?_
      intro t
      by_cases hc : t.parent_id = np ∧ row.position < t.position ∧
          t.position ≤ tp ∧ t.id ≠ i
      · rw [if_pos hc]
        exact ⟨rfl, rfl, rfl, rfl, rfl, fun hnp => absurd hc.1 hnp⟩
      · rw [if_neg hc]
        exact ⟨rfl, rfl, rfl, rfl, rfl, fun _ => rfl⟩
    · unfold shiftBackward
      refine hid _ ?_
      intro t
      by_cases hc : t.parent_id = np ∧ tp ≤ t.position ∧
          t.position < row.position ∧ t.id ≠ i
      · rw [if_pos hc]
        exact ⟨rfl, rfl, rfl, rfl, rfl, fun hnp => absurd hc.1 hnp⟩
      · rw [if_neg hc]
        exact ⟨rfl, rfl, rfl, rfl, rfl, fun _ => rfl⟩
    · exact List.forall₂_same.mpr
        (fun a _ => ⟨rfl, rfl, rfl, rfl, fun _ => rfl, fun _ _ _ => rfl⟩)
    · exact List.forall₂_same.mpr
        (fun a _ => ⟨rfl, rfl, rfl, rfl, fun _ => rfl, fun _ _ _ => rfl⟩)
  have hupdate : ∀ s : List Tag, List.Forall₂ (MoveRel i row.parent_id np) s
      (updateById s i
        (fun t => { t with parent_id := np, position := tp })) := by
    intro s
    unfold updateById
    refine forall₂_map_self _ ?_
    intro a _
    by_cases hai : a.id = i
    · rw [if_pos hai]
      exact ⟨rfl, rfl, rfl, rfl, fun h => absurd hai h, fun h _ _ => absurd hai h⟩
    · rw [if_neg hai]
      exact ⟨rfl, rfl, rfl, rfl, fun _ => rfl, fun _ _ _ => rfl⟩
  have hmidfact : ∀ a b, MoveRel i row.parent_id np a b → b.id = a.id :=
    fun a b h => h.1
  by_cases hpp : row.parent_id = np
  · rw [if_pos hpp] at hm
    have hdb' := Option.some.inj hm
    have hfull : List.Forall₂ (MoveRel i row.parent_id np) db db' := by
      rw [← hdb']
      exact forall₂_comp (moveRel_comp i row.parent_id np) hshift (hupdate _)
    exact ⟨hfull.length_eq.symm, hfull⟩
  · rw [if_neg hpp] at hm
    simp only [if_neg hpp] at hm
    have hdb' := Option.some.inj hm
    have hstage1 : List.Forall₂ (MoveRel i row.parent_id np) db
        (updateById db i (fun t => { t with parent_id := np, position := tp })) :=
      hupdate db
    have hnd1 : ((updateById db i
        (fun t => { t with parent_id := np, position := tp })).map
          (fun t => t.id)).Nodup := by
      rw [forall₂_ids_eq hmidfact hstage1]
      exact hnd
    have hstage2 := reorder_frame _ row.parent_id hnd1
    have hnd2 : ((reorder_tags_in_parent (updateById db i
        (fun t => { t with parent_id := np, position := tp }))
          row.parent_id).map (fun t => t.id)).Nodup := by
      rw [forall₂_ids_eq (fun a b (h : ReorderRel row.parent_id a b) => h.1) hstage2]
      exact hnd1
    have hstage3 := reorder_frame _ np hnd2
    have hfull : List.Forall₂ (MoveRel i row.parent_id np) db db' := by
      rw [← hdb']
      exact forall₂_comp (moveRel_comp i row.parent_id np)
        (forall₂_comp (moveRel_comp i row.parent_id np) hstage1
          (List.Forall₂.imp
            (reorderRel_moveRel i row.parent_id np row.parent_id (Or.inl rfl))
            hstage2))
        (List.Forall₂.imp
          (reorderRel_moveRel i row.parent_id np np (Or.inr rfl)) hstage3)
    exact ⟨hfull.length_eq.symm, hfull⟩

/-- C10 — frame property of `move_tag`: row for row, the result keeps `id`,
`name`, `color` and `created_at`; every non-moved row keeps its `parent_id`;
and every row that is neither the moved one nor in the old-parent group nor
in the new-parent group is unchanged entirely (in particular its
`position`). -/
theorem c10_frame (db : List Tag) (i : Nat) (np : Option Nat) (tp : Int)
    (row : Tag) (db' : List Tag)
    (hnd : (db.map (fun t => t.id)).Nodup)
    (hrow : findTag db i = some row)
    (hm : move_tag db i np tp = some db') :
    db'.length = db.length ∧
      List.Forall₂ (MoveRel i row.parent_id np) db db' :=
  move_tag_frame db i np tp row db' hnd hrow hm

theorem find?_map_general {α β : Type} (f : α → β) (p : β → Bool) (l : List α) :
    (l.map f).find? p = (l.find? (fun a => p (f a))).map f := by
  induction l with
  | nil => rfl
  | cons a l ih =>
    rw [List.map_cons, List.find?_cons, List.find?_cons]
    cases hpa : p (f a) with
    | true => rfl
    | false => exact ih

theorem iterAncestor_congr {g g' : Nat → Option Nat} (h : ∀ x, g x = g' x) :
    ∀ k x, iterAncestor g k x = iterAncestor g' k x := by
  intro k
  induction k with
  | zero => intro x; rfl
  | succ k ih =>
    intro x
    rw [iterAncestor_succ, iterAncestor_succ, h x]
    cases g' x with
    | none => rfl
    | some z => rw [Option.some_bind, Option.some_bind]; exact ih z

theorem acyclic_congr {g g' : Nat → Option Nat} (h : ∀ x, g x = g' x)
    (hacyc : AcyclicLinks g) : AcyclicLinks g' := by
  intro x k hx
  exact hacyc x k (by rw [iterAncestor_congr h]; exact hx)

/-- The snapshot handed to the drag-drop library carries the same ids and
parent links as the tags table. -/
theorem parentOf_toNode (db : List Tag) (x : Nat) :
    parentOfNode (db.map toNode) x = parentOfTag db x := by
  unfold parentOfNode parentOfTag findTag
  rw [find?_map_general]
  show ((db.find? (fun t => decide (t.id = x))).map toNode).bind
      (fun n => n.parent_id) = _
  cases db.find? (fun t => decide (t.id = x)) with
  | none => rfl
  | some t => rfl

/-- Every step of `parentOfTag` starts from a row present in the table. -/
theorem parentOfTag_dom (db : List Tag) (v p : Nat)
    (h : parentOfTag db v = some p) : v ∈ db.map (fun t => t.id) := by
  unfold parentOfTag findTag at h
  cases hf : db.find? (fun t => decide (t.id = v)) with
  | none => rw [hf] at h; cases h
  | some t =>
    have hmem := List.mem_of_find?_eq_some hf
    have hpred := List.find?_some hf
    rw [decide_eq_true_eq] at hpred
    rw [List.mem_map]
    exact ⟨t, hmem, hpred⟩

/-- The decidable acyclicity criterion, specialised to the tags table. -/
theorem acyclicTags_of_chains_exit (db : List Tag)
    (h : ∀ x ∈ db.map (fun t => t.id),
      iterAncestor (parentOfTag db) (db.length + 1) x = none) :
    AcyclicLinks (parentOfTag db) := by
  refine acyclic_of_chains_exit (parentOfTag db) (db.map (fun t => t.id))
    (parentOfTag_dom db) ?_
  intro x hx
  rw [List.length_map]
  exact h x hx

theorem parentsClosed_of_bool (db : List Tag) (h : parentsClosedB db = true) :
    ParentsClosed db := by
  intro t ht p hp
  have := (List.all_eq_true.mp h) t ht
  rw [hp] at this
  simpa using this

/-- On the updated link function, a chain starting at a node whose links
avoid the relinked node is unchanged. -/
theorem iter_relink_avoid (g : Nat → Option Nat) (d : Nat) (np : Option Nat) :
    ∀ k y, AvoidsNode g d y →
      iterAncestor (relink g d np) k y = iterAncestor g k y := by
  intro k
  induction k with
  | zero => intro y _; rfl
  | succ k ih =>
    intro y hav
    have hyd : y ≠ d := hav 0 y rfl
    rw [iterAncestor_succ, iterAncestor_succ,
      show relink g d np y = g y from if_neg hyd]
    cases hg : g y with
    | none => rfl
    | some z =>
      rw [Option.some_bind, Option.some_bind]
      refine ih z ?_
      intro i v hv
      refine hav (i + 1) v ?_
      rw [iterAncestor_succ, hg, Option.some_bind]
      exact hv

/-- Re-linking one node to a safe new parent keeps every chain rooted. -/
theorem reachRoot_relink (g : Nat → Option Nat) (d : Nat) (np : Option Nat)
    (hall : ∀ x, ReachRoot g x)
    (hnp : np = none ∨ ∃ pn, np = some pn ∧ AvoidsNode g d pn) :
    ∀ x, ReachRoot (relink g d np) x := by
  have hd : ReachRoot (relink g d np) d := by
    rcases hnp with rfl | ⟨pn, rfl, hav⟩
    · exact ⟨0, d, rfl, if_pos rfl⟩
    · obtain ⟨j, r, hj, hr⟩ := hall pn
      refine ⟨j + 1, r, ?_, ?_⟩
      · rw [iterAncestor_succ,
          show relink g d (some pn) d = some pn from if_pos rfl,
          Option.some_bind, iter_relink_avoid g d (some pn) j pn hav]
        exact hj
      · rw [show relink g d (some pn) r = g r from if_neg (hav j r hj)]
        exact hr
  have key : ∀ j x r, iterAncestor g j x = some r → g r = none →
      ReachRoot (relink g d np) x := by
    intro j
    induction j with
    | zero =>
      intro x r h0 hr
      have hxr := Option.some.inj h0
      subst hxr
      by_cases hxd : x = d
      · exact hxd ▸ hd
      · exact ⟨0, x, rfl, by
          rw [show relink g d np x = g x from if_neg hxd]; exact hr⟩
    | succ j ih =>
      intro x r hj hr
      by_cases hxd : x = d
      · exact hxd ▸ hd
      · rw [iterAncestor_succ] at hj
        cases hg : g x with
        | none => rw [hg] at hj; cases hj
        | some z =>
          rw [hg, Option.some_bind] at hj
          obtain ⟨m, s, hm, hs⟩ := ih z r hj hr
          refine ⟨m + 1, s, ?_, hs⟩
          rw [iterAncestor_succ,
            show relink g d np x = g x from if_neg hxd, hg, Option.some_bind]
          exact hm
  intro x
  obtain ⟨j, r, hj, hr⟩ := hall x
  exact key j x r hj hr

/-- Re-linking one node to a safe new parent introduces no cycle. -/
theorem acyclic_relink (g : Nat → Option Nat) (d : Nat) (np : Option Nat)
    (hacyc : AcyclicLinks g)
    (hnp : np = none ∨ ∃ pn, np = some pn ∧ AvoidsNode g d pn) :
    AcyclicLinks (relink g d np) := by
  intro x k hcyc
  by_cases hthrough : ∃ i, i ≤ k ∧ iterAncestor (relink g d np) i x = some d
  · obtain ⟨i, hik, hi⟩ := hthrough
    have hrot : iterAncestor (relink g d np) (k + 1) d = some d := by
      have h1 : iterAncestor (relink g d np) ((k + 1) + i) x = some d := by
        rw [iterAncestor_add, hcyc, Option.some_bind]
        exact hi
      have h2 : (k + 1) + i = i + (k + 1) := by omega
      rw [h2, iterAncestor_add, hi, Option.some_bind] at h1
      exact h1
    rw [iterAncestor_succ] at hrot
    rcases hnp with rfl | ⟨pn, rfl, hav⟩
    · rw [show relink g d none d = none from if_pos rfl] at hrot
      cases hrot
    · rw [show relink g d (some pn) d = some pn from if_pos rfl,
        Option.some_bind, iter_relink_avoid g d (some pn) k pn hav] at hrot
      exact hav k d hrot rfl
  · push_neg at hthrough
    have havx : ∀ j, j ≤ k + 1 →
        iterAncestor (relink g d np) j x = iterAncestor g j x := by
      intro j
      induction j with
      | zero => intro _; rfl
      | succ j ih =>
        intro hj
        have hjk := ih (by omega)
        rw [iterAncestor_add (relink g d np) j 1, iterAncestor_add g j 1, hjk]
        cases hv : iterAncestor g j x with
        | none => rfl
        | some v =>
          rw [Option.some_bind, Option.some_bind, iterAncestor_one,
            iterAncestor_one]
          have hvd : v ≠ d := by
            intro hveq
            refine hthrough j (by omega) ?_
            rw [hjk, hv, hveq]
          rw [show relink g d np v = g v from if_neg hvd]
    have hgc : iterAncestor g (k + 1) x = some x := by
      rw [← havx (k + 1) (le_refl _)]
      exact hcyc
    exact hacyc x k hgc

/-- On acyclic links whose steps stay inside the finite list `S`, every chain
exits within `S.length` steps. -/
theorem reachRootWithin_of_wf (g : Nat → Option Nat) (S : List Nat)
    (hacyc : AcyclicLinks g) (hdom : ∀ v p, g v = some p → v ∈ S) (x : Nat) :
    ∃ j ≤ S.length, ∃ r, iterAncestor g j x = some r ∧ g r = none := by
  by_contra h
  push_neg at h
  have hdef : ∀ i, i ≤ S.length + 1 → (iterAncestor g i x).isSome := by
    intro i
    induction i with
    | zero => intro _; rfl
    | succ i ih =>
      intro hi
      have hsome := ih (by omega)
      obtain ⟨v, hv⟩ := Option.isSome_iff_exists.mp hsome
      have hgv := h i (by omega) v hv
      rw [iterAncestor_add g i 1, hv, Option.some_bind, iterAncestor_one]
      cases hg : g v with
      | none => exact absurd hg hgv
      | some p => rfl
  exact no_defined_chain g S hacyc hdom x hdef

theorem find?_congr_local {α : Type} (p q : α → Bool) (l : List α)
    (h : ∀ a ∈ l, p a = q a) : l.find? p = l.find? q := by
  induction l with
  | nil => rfl
  | cons a l ih =>
    rw [List.find?_cons, List.find?_cons, h a (List.mem_cons_self a l)]
    cases hqa : q a with
    | true => rfl
    | false => exact ih (fun x hx => h x (List.mem_cons_of_mem a hx))

theorem findTag_map_presv (s : List Tag) (φ : Tag → Tag)
    (hφ : ∀ t, (φ t).id = t.id) (x : Nat) :
    findTag (s.map φ) x = (findTag s x).map φ := by
  unfold findTag
  rw [find?_map_general,
    find?_congr_local _ (fun a => decide (a.id = x)) s (fun a _ => by rw [hφ a])]

theorem parentOfTag_map_presv (s : List Tag) (φ : Tag → Tag)
    (hφ : ∀ t, (φ t).id = t.id ∧ (φ t).parent_id = t.parent_id) (x : Nat) :
    parentOfTag (s.map φ) x = parentOfTag s x := by
  unfold parentOfTag
  rw [findTag_map_presv s φ (fun t => (hφ t).1)]
  cases hf : findTag s x with
  | none => rfl
  | some t => exact (hφ t).2

theorem parentOfTag_updateSet (s : List Tag) (i : Nat) (np : Option Nat)
    (tp : Int) (x : Nat) :
    parentOfTag (updateById s i
        (fun t => { t with parent_id := np, position := tp })) x =
      if x = i then (findTag s i).bind (fun _ => np) else parentOfTag s x := by
  have hid : ∀ t : Tag,
      ((fun t => if t.id = i then
          { t with parent_id := np, position := tp } else t) t).id = t.id := by
    intro t
    dsimp only
    by_cases h : t.id = i
    · rw [if_pos h]
    · rw [if_neg h]
  by_cases hxi : x = i
  · subst hxi
    unfold updateById parentOfTag
    rw [findTag_map_presv s _ hid, if_pos rfl]
    cases hf : findTag s x with
    | none => rfl
    | some t =>
      have htid : t.id = x := by
        unfold findTag at hf
        have := List.find?_some hf
        rwa [decide_eq_true_eq] at this
      show (if t.id = x then
        { t with parent_id := np, position := tp } else t).parent_id = np
      rw [if_pos htid]
  · unfold updateById parentOfTag
    rw [findTag_map_presv s _ hid, if_neg hxi]
    cases hf : findTag s x with
    | none => rfl
    | some t =>
      have htid : t.id = x := by
        unfold findTag at hf
        have := List.find?_some hf
        rwa [decide_eq_true_eq] at this
      show (if t.id = i then
        { t with parent_id := np, position := tp } else t).parent_id = t.parent_id
      rw [if_neg (fun h => hxi (htid.symm.trans h))]

theorem parentOfTag_foldl_setPos (L : List (Nat × Nat)) :
    ∀ (s : List Tag) (x : Nat),
      parentOfTag (L.foldl (fun s q => updateById s q.2 (setPosition q.1)) s) x =
        parentOfTag s x := by
  induction L with
  | nil => intro s x; rfl
  | cons q L ih =>
    intro s x
    rw [List.foldl_cons, ih]
    show parentOfTag (s.map (fun t =>
      if t.id = q.2 then setPosition q.1 t else t)) x = parentOfTag s x
    refine parentOfTag_map_presv s _ ?_ x
    intro t
    dsimp only
    by_cases h : t.id = q.2
    · rw [if_pos h]
      exact ⟨rfl, rfl⟩
    · rw [if_neg h]
      exact ⟨rfl, rfl⟩

theorem reorder_parentOf (db : List Tag) (p : Option Nat) (x : Nat) :
    parentOfTag (reorder_tags_in_parent db p) x = parentOfTag db x := by
  unfold reorder_tags_in_parent
  exact parentOfTag_foldl_setPos _ db x

/-- The parent function after `move_tag` is exactly the old one with the
moved id re-linked to the new parent. -/
theorem move_tag_parentOf (db : List Tag) (i : Nat) (np : Option Nat)
    (tp : Int) (row : Tag) (db' : List Tag)
    (hrow : findTag db i = some row)
    (hm : move_tag db i np tp = some db') (x : Nat) :
    parentOfTag db' x = relink (parentOfTag db) i np x := by
  unfold move_tag at hm
  rw [hrow] at hm
  dsimp only at hm
  have hshid : ∀ (np' : Option Nat) (c tp' : Int),
      (∀ t : Tag, ((fun t => if t.parent_id = np' ∧ c < t.position ∧
            t.position ≤ tp' ∧ t.id ≠ i then
          { t with position := t.position - 1 } else t) t).id = t.id ∧
        ((fun t => if t.parent_id = np' ∧ c < t.position ∧
            t.position ≤ tp' ∧ t.id ≠ i then
          { t with position := t.position - 1 } else t) t).parent_id =
          t.parent_id) := by
    intro np' c tp' t
    dsimp only
    by_cases h : t.parent_id = np' ∧ c < t.position ∧ t.position ≤ tp' ∧ t.id ≠ i
    · rw [if_pos h]; exact ⟨rfl, rfl⟩
    · rw [if_neg h]; exact ⟨rfl, rfl⟩
  have hshid2 : ∀ (np' : Option Nat) (tp' c : Int),
      (∀ t : Tag, ((fun t => if t.parent_id = np' ∧ tp' ≤ t.position ∧
            t.position < c ∧ t.id ≠ i then
          { t with position := t.position + 1 } else t) t).id = t.id ∧
        ((fun t => if t.parent_id = np' ∧ tp' ≤ t.position ∧
            t.position < c ∧ t.id ≠ i then
          { t with position := t.position + 1 } else t) t).parent_id =
          t.parent_id) := by
    intro np' tp' c t
    dsimp only
    by_cases h : t.parent_id = np' ∧ tp' ≤ t.position ∧ t.position < c ∧ t.id ≠ i
    · rw [if_pos h]; exact ⟨rfl, rfl⟩
    · rw [if_neg h]; exact ⟨rfl, rfl⟩
  by_cases hpp : row.parent_id = np
  · simp only [if_pos hpp] at hm
    have hdb' := Option.some.inj hm
    subst hdb'
    rw [parentOfTag_updateSet]
    have hpo : ∀ y, parentOfTag
        (if row.position < tp then shiftForward db np row.position tp i
         else if tp < row.position then shiftBackward db np tp row.position i
         else db) y = parentOfTag db y := by
      intro y
      split_ifs with h1 h2
      · exact parentOfTag_map_presv db _ (hshid np row.position tp) y
      · exact parentOfTag_map_presv db _ (hshid2 np tp row.position) y
      · rfl
    have hfind1 : ∃ u, findTag
        (if row.position < tp then shiftForward db np row.position tp i
         else if tp < row.position then shiftBackward db np tp row.position i
         else db) i = some u := by
      split_ifs with h1 h2
      · rw [show shiftForward db np row.position tp i = db.map _ from rfl,
          findTag_map_presv db _ (fun t => (hshid np row.position tp t).1), hrow]
        exact ⟨_, rfl⟩
      · rw [show shiftBackward db np tp row.position i = db.map _ from rfl,
          findTag_map_presv db _ (fun t => (hshid2 np tp row.position t).1), hrow]
        exact ⟨_, rfl⟩
      · exact ⟨row, hrow⟩
    unfold relink
    by_cases hxi : x = i
    · rw [if_pos hxi, if_pos hxi]
      obtain ⟨u, hu⟩ := hfind1
      rw [hu]
      rfl
    · rw [if_neg hxi, if_neg hxi]
      exact hpo x
  · simp only [if_neg hpp] at hm
    have hdb' := Option.some.inj hm
    subst hdb'
    rw [reorder_parentOf, reorder_parentOf, parentOfTag_updateSet]
    unfold relink
    by_cases hxi : x = i
    · rw [if_pos hxi, if_pos hxi, hrow]
      rfl
    · rw [if_neg hxi, if_neg hxi]

/-- Case analysis of a successful `compute_drop_action`: the dragged and
target ids differ, the cycle check returned `false`, and the new parent is
the root, the target's parent, or the target itself. -/
theorem compute_np_cases (db : List Tag) (d t : Nat) (r : ℚ) (fuel : Nat)
    (np : Option Nat) (tp : Int) (act : String)
    (hc : compute_drop_action d t r (db.map toNode) fuel =
      some (some (np, tp, act))) :
    d ≠ t ∧ is_descendant (db.map toNode) d t fuel = some false ∧
      (np = none ∨ ∃ trow, findTag db t = some trow ∧
        (np = trow.parent_id ∨ np = some trow.id)) := by
  unfold compute_drop_action at hc
  by_cases hdt : d = t
  · rw [if_pos hdt] at hc
    simp at hc
  · rw [if_neg hdt] at hc
    cases hw : is_descendant (db.map toNode) d t fuel with
    | none => rw [hw] at hc; cases hc
    | some b =>
      cases b with
      | true => rw [hw] at hc; simp at hc
      | false =>
        rw [hw] at hc
        refine ⟨hdt, rfl, ?_⟩
        cases hf : (db.map toNode).find? (fun n => decide (n.id = t)) with
        | none =>
          rw [hf] at hc
          simp only [Option.some.injEq, Prod.mk.injEq] at hc
          exact Or.inl hc.1.symm
        | some T =>
          rw [hf] at hc
          dsimp only at hc
          have hf2 : (findTag db t).map toNode = some T := by
            rw [find?_map_general] at hf
            exact hf
          cases hft : findTag db t with
          | none => rw [hft] at hf2; cases hf2
          | some trow =>
            rw [hft] at hf2
            have hT := Option.some.inj hf2
            subst hT
            refine Or.inr ⟨trow, rfl, ?_⟩
            by_cases hr1 : r < mkRat 1 4
            · rw [if_pos hr1] at hc
              by_cases hp : (toNode trow).parent_id =
                  ((db.map toNode).find? (fun n => decide (n.id = d))).bind
                    (fun n => n.parent_id)
              · rw [if_pos hp] at hc
                simp only [Option.some.injEq, Prod.mk.injEq] at hc
                exact Or.inl hc.1.symm
              · rw [if_neg hp] at hc
                simp only [Option.some.injEq, Prod.mk.injEq] at hc
                exact Or.inl hc.1.symm
            · rw [if_neg hr1] at hc
              by_cases hr2 : mkRat 3 4 < r
              · rw [if_pos hr2] at hc
                simp only [Option.some.injEq, Prod.mk.injEq] at hc
                exact Or.inl hc.1.symm
              · rw [if_neg hr2] at hc
                simp only [Option.some.injEq, Prod.mk.injEq] at hc
                exact Or.inr hc.1.symm

theorem forall₂_mem_right {α : Type} {R : α → α → Prop} {l1 l2 : List α}
    (h : List.Forall₂ R l1 l2) : ∀ b ∈ l2, ∃ a ∈ l1, R a b := by
  induction h with
  | nil => intro b hb; cases hb
  | cons hR hl ih =>
    intro b hb
    rcases List.mem_cons.mp hb with rfl | hb
    · exact ⟨_, List.mem_cons_self _ _, hR⟩
    · obtain ⟨a, ha, hab⟩ := ih b hb
      exact ⟨a, List.mem_cons_of_mem _ ha, hab⟩

/-- `move_tag` preserves the id column and referential integrity, provided
the new parent is the root or an existing id. -/
theorem move_tag_closed (db : List Tag) (i : Nat) (np : Option Nat) (tp : Int)
    (row : Tag) (db' : List Tag)
    (hnd : (db.map (fun t => t.id)).Nodup)
    (hclosed : ParentsClosed db)
    (hrow : findTag db i = some row)
    (hm : move_tag db i np tp = some db')
    (hnp : np = none ∨ ∃ p, np = some p ∧ p ∈ db.map (fun t => t.id)) :
    ParentsClosed db' ∧ db'.map (fun t => t.id) = db.map (fun t => t.id) := by
  obtain ⟨hlen, hfa⟩ := move_tag_frame db i np tp row db' hnd hrow hm
  have hids : db'.map (fun t => t.id) = db.map (fun t => t.id) :=
    forall₂_ids_eq (fun a b h => h.1) hfa
  have hnd' : (db'.map (fun t => t.id)).Nodup := by rw [hids]; exact hnd
  refine ⟨?_, hids⟩
  intro t' ht' p hp
  obtain ⟨t, ht, hR⟩ := forall₂_mem_right hfa t' ht'
  by_cases hti : t.id = i
  · have hpo := move_tag_parentOf db i np tp row db' hrow hm i
    rw [show relink (parentOfTag db) i np i = np from if_pos rfl] at hpo
    have ht'id : t'.id = i := by rw [hR.1, hti]
    have hsome : ((db'.find? (fun u => decide (u.id = i)))).isSome := by
      rw [List.find?_isSome]
      exact ⟨t', ht', by rw [decide_eq_true_eq]; exact ht'id⟩
    obtain ⟨u, hu⟩ := Option.isSome_iff_exists.mp hsome
    have humem := List.mem_of_find?_eq_some hu
    have huid : u.id = i := by
      have := List.find?_some hu
      rwa [decide_eq_true_eq] at this
    have hut : u = t' :=
      List.inj_on_of_nodup_map hnd' humem ht' (huid.trans ht'id.symm)
    have hparnp : t'.parent_id = np := by
      unfold parentOfTag findTag at hpo
      rw [hu] at hpo
      rw [← hut]
      exact hpo
    rw [hparnp] at hp
    rcases hnp with rfl | ⟨q, hq, hqids⟩
    · cases hp
    · rw [hq] at hp
      have hpq := Option.some.inj hp
      rw [hids, ← hpq]
      exact hqids
  · have hpar := hR.2.2.2.2.1 hti
    rw [hpar] at hp
    rw [hids]
    exact hclosed t ht p hp

/-- Chains over a closed table stay inside the id column. -/
theorem chain_in_ids (db : List Tag) (hclosed : ParentsClosed db) :
    ∀ j x v, x ∈ db.map (fun t => t.id) →
      iterAncestor (parentOfTag db) j x = some v →
      v ∈ db.map (fun t => t.id) := by
  intro j
  induction j with
  | zero =>
    intro x v hx h0
    rw [iterAncestor_zero] at h0
    exact (Option.some.inj h0) ▸ hx
  | succ j ih =>
    intro x v hx hj
    rw [iterAncestor_succ] at hj
    cases hg : parentOfTag db x with
    | none => rw [hg] at hj; cases hj
    | some q =>
      rw [hg, Option.some_bind] at hj
      have hq : q ∈ db.map (fun t => t.id) := by
        unfold parentOfTag at hg
        cases hf : findTag db x with
        | none => rw [hf] at hg; cases hg
        | some s =>
          rw [hf] at hg
          have hs : s ∈ db := by
            unfold findTag at hf
            exact List.mem_of_find?_eq_some hf
          exact hclosed s hs q hg
      exact ih q v hq hj

/-- C3 — acyclicity is preserved: starting from a well-formed table (unique
ids, closed parent references, acyclic links), any `move_tag` whose arguments
were produced by a successful `compute_drop_action` on the projected snapshot
leaves the links acyclic, and from every row the parent chain still reaches a
root row (`parent_id = none`) within `count` steps. -/
theorem c3_acyclicity_preserved (db : List Tag) (dragged target : Nat)
    (r : ℚ) (np : Option Nat) (tp : Int) (act : String) (db' : List Tag)
    (hwf : WFdb db)
    (hc : compute_drop_action dragged target r (db.map toNode)
      (db.length + 2) = some (some (np, tp, act)))
    (hm : move_tag db dragged np tp = some db') :
    AcyclicLinks (parentOfTag db') ∧
      ∀ t ∈ db', ∃ j ≤ db'.length, ∃ s ∈ db',
        iterAncestor (parentOfTag db') j t.id = some s.id ∧
          s.parent_id = none := by
  obtain ⟨hnd, hclosed, hacyc⟩ := hwf
  have hrowex : ∃ row, findTag db dragged = some row := by
    unfold move_tag at hm
    cases hf : findTag db dragged with
    | none => rw [hf] at hm; cases hm
    | some row => exact ⟨row, rfl⟩
  obtain ⟨row, hrow⟩ := hrowex
  obtain ⟨hdt, hwalk, hnpcase⟩ := compute_np_cases db dragged target r _ np tp act hc
  have hbridge : ∀ x, parentOfNode (db.map toNode) x = parentOfTag db x :=
    parentOf_toNode db
  have havT : AvoidsNode (parentOfTag db) dragged target := by
    have h1 := walk_false_avoids (db.map toNode) dragged _ target hwalk
    intro i v hv
    refine h1 i v ?_
    rw [iterAncestor_congr hbridge]
    exact hv
  have hnpsafe : np = none ∨ ∃ pn, np = some pn ∧
      AvoidsNode (parentOfTag db) dragged pn := by
    rcases hnpcase with rfl | ⟨trow, hft, hcase⟩
    · exact Or.inl rfl
    · have htid : trow.id = target := by
        unfold findTag at hft
        have := List.find?_some hft
        rwa [decide_eq_true_eq] at this
      have hgt : parentOfTag db target = trow.parent_id := by
        unfold parentOfTag
        rw [hft]
        rfl
      rcases hcase with rfl | rfl
      · cases hpid : trow.parent_id with
        | none => exact Or.inl rfl
        | some pn =>
          right
          refine ⟨pn, rfl, ?_⟩
          intro i v hv
          refine havT (i + 1) v ?_
          rw [iterAncestor_succ, hgt, hpid, Option.some_bind]
          exact hv
      · right
        refine ⟨trow.id, rfl, ?_⟩
        rw [htid]
        exact havT
  have hrel : ∀ x, parentOfTag db' x = relink (parentOfTag db) dragged np x :=
    move_tag_parentOf db dragged np tp row db' hrow hm
  have hacyc' : AcyclicLinks (parentOfTag db') :=
    acyclic_congr (fun x => (hrel x).symm)
      (acyclic_relink (parentOfTag db) dragged np hacyc hnpsafe)
  refine ⟨hacyc', ?_⟩
  have hnpids : np = none ∨ ∃ p, np = some p ∧ p ∈ db.map (fun t => t.id) := by
    rcases hnpcase with rfl | ⟨trow, hft, hcase⟩
    · exact Or.inl rfl
    · have htmem : trow ∈ db := by
        unfold findTag at hft
        exact List.mem_of_find?_eq_some hft
      rcases hcase with rfl | rfl
      · cases hpid : trow.parent_id with
        | none => exact Or.inl rfl
        | some pn => exact Or.inr ⟨pn, rfl, hclosed trow htmem pn hpid⟩
      · exact Or.inr ⟨trow.id, rfl, List.mem_map.mpr ⟨trow, htmem, rfl⟩⟩
  obtain ⟨hclosed', hids⟩ :=
    move_tag_closed db dragged np tp row db' hnd hclosed hrow hm hnpids
  intro t ht
  obtain ⟨j, hj, rr, hiter, hroot⟩ := reachRootWithin_of_wf (parentOfTag db')
    (db'.map (fun u => u.id)) hacyc' (parentOfTag_dom db') t.id
  rw [List.length_map] at hj
  have htin : t.id ∈ db'.map (fun u => u.id) := List.mem_map.mpr ⟨t, ht, rfl⟩
  have hrin : rr ∈ db'.map (fun u => u.id) :=
    chain_in_ids db' hclosed' j t.id rr htin hiter
  obtain ⟨s, hsmem, hsid⟩ := List.mem_map.mp hrin
  have hfr : ∃ u, findTag db' rr = some u ∧ u.parent_id = none := by
    unfold parentOfTag at hroot
    cases hf : findTag db' rr with
    | none =>
      exfalso
      have hsome : ((db'.find? (fun u => decide (u.id = rr)))).isSome := by
        rw [List.find?_isSome]
        exact ⟨s, hsmem, by rw [decide_eq_true_eq]; exact hsid⟩
      unfold findTag at hf
      rw [hf] at hsome
      cases hsome
    | some u =>
      rw [hf] at hroot
      exact ⟨u, rfl, hroot⟩
  obtain ⟨u, hu, hupar⟩ := hfr
  have humem : u ∈ db' := by
    unfold findTag at hu
    exact List.mem_of_find?_eq_some hu
  have huid : u.id = rr := by
    unfold findTag at hu
    have := List.find?_some hu
    rwa [decide_eq_true_eq] at this
  exact ⟨j, hj, u, humem, by rw [huid]; exact hiter, hupar⟩

theorem c3_acyclicity_preserved_witness :
    AcyclicLinks (parentOfTag crossDbChild) ∧
      ∀ t ∈ crossDbChild, ∃ j ≤ crossDbChild.length, ∃ s ∈ crossDbChild,
        iterAncestor (parentOfTag crossDbChild) j t.id = some s.id ∧
          s.parent_id = none :=
  c3_acyclicity_preserved crossDb 6 3 (mkRat 1 2) (some 3) 0 "child"
    crossDbChild
    ⟨by decide, parentsClosed_of_bool crossDb (by decide),
      acyclicTags_of_chains_exit crossDb (by decide)⟩
    (by decide) (by decide)

theorem c10_frame_witness :
    crossDbMovedB.length = crossDb.length ∧
      List.Forall₂ (MoveRel 4 (Tag.mk 4 "b" (some 1) none 1 0).parent_id (some 2))
        crossDb crossDbMovedB :=
  c10_frame crossDb 4 (some 2) 1 ⟨4, "b", some 1, none, 1, 0⟩ crossDbMovedB
    (by decide) (by decide) (by decide)

theorem inSubtree_dom (tags : List Node) (n x : Nat) (h : InSubtree tags n x) :
    x = n ∨ x ∈ tags.map (fun t => t.id) := by
  obtain ⟨k, hk⟩ := h
  cases k with
  | zero => exact Or.inl (Option.some.inj hk)
  | succ k =>
    rw [iterAncestor_succ] at hk
    cases hg : parentOfNode tags x with
    | none => rw [hg] at hk; cases hk
    | some p => exact Or.inr (parentOfNode_dom tags x p hg)

theorem childIds_parent (tags : List Node)
    (hnd : (tags.map (fun t => t.id)).Nodup) (i c : Nat)
    (hc : c ∈ childIds tags i) : parentOfNode tags c = some i := by
  unfold childIds at hc
  rw [List.mem_map] at hc
  obtain ⟨t, htf, rfl⟩ := hc
  have ht := List.mem_filter.mp htf
  have htp : t.parent_id = some i := by
    have := ht.2
    rwa [decide_eq_true_eq] at this
  unfold parentOfNode
  have hsome : ((tags.find? (fun u => decide (u.id = t.id)))).isSome := by
    rw [List.find?_isSome]
    exact ⟨t, ht.1, by rw [decide_eq_true_eq]⟩
  obtain ⟨u, hu⟩ := Option.isSome_iff_exists.mp hsome
  have humem := List.mem_of_find?_eq_some hu
  have huid : u.id = t.id := by
    have := List.find?_some hu
    rwa [decide_eq_true_eq] at this
  have hut : u = t := List.inj_on_of_nodup_map hnd humem ht.1 huid
  rw [hu, hut]
  exact htp

theorem childIds_nodup (tags : List Node)
    (hnd : (tags.map (fun t => t.id)).Nodup) (i : Nat) :
    (childIds tags i).Nodup := by
  unfold childIds
  exact hnd.sublist ((List.filter_sublist tags).map _)

theorem mem_childIds_of_parent (tags : List Node) (c p : Nat)
    (h : parentOfNode tags c = some p) : c ∈ childIds tags p := by
  unfold parentOfNode at h
  cases hf : tags.find? (fun u => decide (u.id = c)) with
  | none => rw [hf] at h; cases h
  | some t =>
    rw [hf] at h
    have htid : t.id = c := by
      have := List.find?_some hf
      rwa [decide_eq_true_eq] at this
    have htm := List.mem_of_find?_eq_some hf
    unfold childIds
    rw [List.mem_map]
    exact ⟨t, List.mem_filter.mpr ⟨htm, by rw [decide_eq_true_eq]; exact h⟩, htid⟩

theorem nodup_sub_length (l : List Nat) (n : Nat) (S : List Nat)
    (hnd : l.Nodup) (hsub : ∀ x ∈ l, x = n ∨ x ∈ S) :
    l.length ≤ S.length + 1 := by
  have h1 : l.toFinset.card = l.length := List.toFinset_card_of_nodup hnd
  have h2 : l.toFinset ⊆ insert n S.toFinset := by
    intro a ha
    rw [List.mem_toFinset] at ha
    rcases hsub a ha with rfl | h
    · exact Finset.mem_insert_self _ _
    · exact Finset.mem_insert_of_mem (List.mem_toFinset.mpr h)
  have h3 := Finset.card_le_card h2
  have h4 := Finset.card_insert_le n S.toFinset
  have h5 := List.toFinset_card_le S
  omega

theorem dfsInv_final (tags : List Node) (n : Nat) (acc : List Nat)
    (hinv : DfsInv tags n [] acc) :
    acc.Nodup ∧ (∀ x ∈ acc ++ ([] : List Nat), x ∈ acc) ∧
      (∀ x ∈ acc, InSubtree tags n x) ∧
      (∀ p ∈ acc, ∀ c ∈ childIds tags p, c ∈ acc) ∧ n ∈ acc := by
  obtain ⟨h1, h2, h3, h4, h5⟩ := hinv
  rw [List.append_nil] at h1 h2 h4
  refine ⟨h1, ?_, h2, ?_, h4⟩
  · intro x hx
    rw [List.append_nil] at hx
    exact hx
  · intro p hp c hc
    rcases h3 p hp c hc with h | h
    · exact h
    · cases h

/-- Correctness of the subtree-collection loop: with the invariant and enough
fuel, the result is duplicate-free, contains everything collected or pending,
contains only subtree members, is closed under children, and contains the
toggled node. -/
theorem collect_subtree_spec (tags : List Node) (n : Nat)
    (hnd : (tags.map (fun t => t.id)).Nodup)
    (hacyc : AcyclicLinks (parentOfNode tags)) :
    ∀ fuel stack acc, DfsInv tags n stack acc →
      tags.length + 1 ≤ fuel + acc.length →
      (collect_subtree tags fuel stack acc).Nodup ∧
        (∀ x ∈ acc ++ stack, x ∈ collect_subtree tags fuel stack acc) ∧
        (∀ x ∈ collect_subtree tags fuel stack acc, InSubtree tags n x) ∧
        (∀ p ∈ collect_subtree tags fuel stack acc,
          ∀ c ∈ childIds tags p, c ∈ collect_subtree tags fuel stack acc) ∧
        n ∈ collect_subtree tags fuel stack acc := by
  intro fuel
  induction fuel with
  | zero =>
    intro stack acc hinv hcap
    have hsub : ∀ x ∈ acc ++ stack, x = n ∨ x ∈ tags.map (fun t => t.id) :=
      fun x hx => inSubtree_dom tags n x (hinv.2.1 x hx)
    have hlen := nodup_sub_length (acc ++ stack) n (tags.map (fun t => t.id))
      hinv.1 hsub
    rw [List.length_append, List.length_map] at hlen
    have hstack : stack = [] := by
      cases stack with
      | nil => rfl
      | cons a s =>
        exfalso
        simp only [List.length_cons] at hlen
        omega
    subst hstack
    exact dfsInv_final tags n acc hinv
  | succ fuel ih =>
    intro stack acc hinv hcap
    cases stack with
    | nil => exact dfsInv_final tags n acc hinv
    | cons i rest =>
      obtain ⟨h1, h2, h3, h4, h5⟩ := hinv
      have hiin : i ∈ acc ++ i :: rest := by simp
      have hiacc : i ∉ acc := by
        intro hia
        have hdis := (List.nodup_append.mp h1).2.2
        exact hdis hia (List.mem_cons_self i rest)
      have hiSub : InSubtree tags n i := h2 i hiin
      have hChildSub : ∀ c ∈ childIds tags i, InSubtree tags n c := by
        intro c hc
        obtain ⟨k, hk⟩ := hiSub
        exact ⟨k + 1, by
          rw [iterAncestor_succ, childIds_parent tags hnd i c hc,
            Option.some_bind]
          exact hk⟩
      have hFresh : ∀ c ∈ childIds tags i, c ∉ acc ++ i :: rest := by
        intro c hc hmem
        have hgc := childIds_parent tags hnd i c hc
        rcases h5 c hmem with rfl | ⟨p, hp, hgp⟩
        · obtain ⟨k, hk⟩ := hiSub
          exact hacyc c k (by
            rw [iterAncestor_succ, hgc, Option.some_bind]
            exact hk)
        · rw [hgc] at hgp
          have hpi : i = p := Option.some.inj hgp
          exact hiacc (hpi ▸ hp)
      have hrearr : acc ++ i :: rest = (acc ++ [i]) ++ rest := by simp
      have hmemold : ∀ x, x ∈ acc ++ i :: rest ↔
          (x ∈ acc ∨ x = i ∨ x ∈ rest) := by
        intro x
        simp [List.mem_append, List.mem_cons]
      have hmemnew : ∀ x, x ∈ (acc ++ [i]) ++ ((childIds tags i).reverse ++ rest) ↔
          (x ∈ acc ∨ x = i ∨ x ∈ childIds tags i ∨ x ∈ rest) := by
        intro x
        simp [List.mem_append, List.mem_cons, List.mem_reverse]
      have hinv' : DfsInv tags n ((childIds tags i).reverse ++ rest)
          (acc ++ [i]) := by
        refine ⟨?_, ?_, ?_, ?_, ?_⟩
        · rw [hrearr] at h1
          obtain ⟨hA, hrest, hdisAR⟩ := List.nodup_append.mp h1
          refine List.nodup_append.mpr ⟨hA, List.nodup_append.mpr
            ⟨List.nodup_reverse.mpr (childIds_nodup tags hnd i), hrest, ?_⟩, ?_⟩
          · intro c hcr hcrest
            rw [List.mem_reverse] at hcr
            exact hFresh c hcr ((hmemold c).mpr (Or.inr (Or.inr hcrest)))
          · intro a haA hartail
            rcases List.mem_append.mp hartail with har | har
            · rw [List.mem_reverse] at har
              refine hFresh a har ?_
              rcases List.mem_append.mp haA with h | h
              · exact (hmemold a).mpr (Or.inl h)
              · exact (hmemold a).mpr (Or.inr (Or.inl (List.mem_singleton.mp h)))
            · exact hdisAR haA har
        · intro x hx
          rcases (hmemnew x).mp hx with h | h | h | h
          · exact h2 x ((hmemold x).mpr (Or.inl h))
          · exact h ▸ hiSub
          · exact hChildSub x h
          · exact h2 x ((hmemold x).mpr (Or.inr (Or.inr h)))
        · intro p hp c hc
          rcases List.mem_append.mp hp with hpacc | hpi
          · rcases h3 p hpacc c hc with h | h
            · exact Or.inl (List.mem_append.mpr (Or.inl h))
            · rcases List.mem_cons.mp h with rfl | h
              · exact Or.inl (List.mem_append.mpr (Or.inr (List.mem_singleton.mpr rfl)))
              · exact Or.inr (List.mem_append.mpr (Or.inr h))
          · have hpi' : p = i := List.mem_singleton.mp hpi
            subst hpi'
            exact Or.inr (List.mem_append.mpr (Or.inl (List.mem_reverse.mpr hc)))
        · rcases (hmemold n).mp h4 with h | h | h
          · exact (hmemnew n).mpr (Or.inl h)
          · exact (hmemnew n).mpr (Or.inr (Or.inl h))
          · exact (hmemnew n).mpr (Or.inr (Or.inr (Or.inr h)))
        · intro c hc
          rcases (hmemnew c).mp hc with h | h | h | h
          · rcases h5 c ((hmemold c).mpr (Or.inl h)) with h' | ⟨p, hp, hgp⟩
            · exact Or.inl h'
            · exact Or.inr ⟨p, List.mem_append.mpr (Or.inl hp), hgp⟩
          · rcases h5 c ((hmemold c).mpr (Or.inr (Or.inl h))) with h' | ⟨p, hp, hgp⟩
            · exact Or.inl h'
            · exact Or.inr ⟨p, List.mem_append.mpr (Or.inl hp), hgp⟩
          · exact Or.inr ⟨i, List.mem_append.mpr
              (Or.inr (List.mem_singleton.mpr rfl)), childIds_parent tags hnd i c h⟩
          · rcases h5 c ((hmemold c).mpr (Or.inr (Or.inr h))) with h' | ⟨p, hp, hgp⟩
            · exact Or.inl h'
            · exact Or.inr ⟨p, List.mem_append.mpr (Or.inl hp), hgp⟩
      have hcap' : tags.length + 1 ≤ fuel + (acc ++ [i]).length := by
        rw [List.length_append, List.length_singleton]
        omega
      obtain ⟨hr1, hr2, hr3, hr4, hr5⟩ := ih ((childIds tags i).reverse ++ rest)
        (acc ++ [i]) hinv' hcap'
      refine ⟨hr1, ?_, hr3, hr4, hr5⟩
      intro x hx
      refine hr2 x ?_
      rcases (hmemold x).mp hx with h | h | h
      · exact (hmemnew x).mpr (Or.inl h)
      · exact (hmemnew x).mpr (Or.inr (Or.inl h))
      · exact (hmemnew x).mpr (Or.inr (Or.inr (Or.inr h)))

/-- The collected list is exactly the subtree of the toggled node (self plus
all transitive descendants), without duplicates. -/
theorem collect_subtree_char (tags : List Node) (n : Nat)
    (hnd : (tags.map (fun t => t.id)).Nodup)
    (hacyc : AcyclicLinks (parentOfNode tags)) :
    (collect_subtree tags (tags.length + 1) [n] []).Nodup ∧
      n ∈ collect_subtree tags (tags.length + 1) [n] [] ∧
      ∀ x, x ∈ collect_subtree tags (tags.length + 1) [n] [] ↔
        InSubtree tags n x := by
  have hinv : DfsInv tags n [n] [] := by
    refine ⟨by simp, ?_, ?_, by simp, ?_⟩
    · intro x hx
      simp at hx
      subst hx
      exact ⟨0, rfl⟩
    · intro p hp
      cases hp
    · intro c hc
      simp at hc
      exact Or.inl hc
  obtain ⟨h1, h2, h3, h4, h5⟩ := collect_subtree_spec tags n hnd hacyc
    (tags.length + 1) [n] [] hinv (by simp)
  refine ⟨h1, h5, ?_⟩
  have hcompl : ∀ k x, iterAncestor (parentOfNode tags) k x = some n →
      x ∈ collect_subtree tags (tags.length + 1) [n] [] := by
    intro k
    induction k with
    | zero =>
      intro x hk
      have hx := Option.some.inj hk
      subst hx
      exact h5
    | succ k ihk =>
      intro x hk
      rw [iterAncestor_succ] at hk
      cases hg : parentOfNode tags x with
      | none => rw [hg] at hk; cases hk
      | some p =>
        rw [hg, Option.some_bind] at hk
        exact h4 p (ihk p hk) x (mem_childIds_of_parent tags x p hg)
  intro x
  exact ⟨h3 x, fun hx => by obtain ⟨k, hk⟩ := hx; exact hcompl k x hk⟩

theorem mem_foldl_push (l : List Nat) :
    ∀ (cur : List Nat) (x : Nat),
      (x ∈ l.foldl (fun cur j => if j ∈ cur then cur else cur ++ [j]) cur) ↔
        (x ∈ cur ∨ x ∈ l) := by
  induction l with
  | nil => intro cur x; simp
  | cons a l ih =>
    intro cur x
    rw [List.foldl_cons]
    by_cases ha : a ∈ cur
    · rw [if_pos ha, ih]
      constructor
      · rintro (h | h)
        · exact Or.inl h
        · exact Or.inr (List.mem_cons_of_mem a h)
      · rintro (h | h)
        · exact Or.inl h
        · rcases List.mem_cons.mp h with rfl | h
          · exact Or.inl ha
          · exact Or.inr h
    · rw [if_neg ha, ih]
      constructor
      · rintro (h | h)
        · rcases List.mem_append.mp h with h | h
          · exact Or.inl h
          · exact Or.inr (List.mem_cons.mpr (Or.inl (List.mem_singleton.mp h)))
        · exact Or.inr (List.mem_cons_of_mem a h)
      · rintro (h | h)
        · exact Or.inl (List.mem_append.mpr (Or.inl h))
        · rcases List.mem_cons.mp h with rfl | h
          · exact Or.inl (List.mem_append.mpr
              (Or.inr (List.mem_singleton.mpr rfl)))
          · exact Or.inr h

theorem one_lt_length_iff (R : List Nat) (n : Nat) (hnd : R.Nodup)
    (hn : n ∈ R) : 1 < R.length ↔ ∃ m ∈ R, m ≠ n := by
  constructor
  · intro hlen
    by_contra hno
    push_neg at hno
    cases R with
    | nil => simp at hlen
    | cons a t =>
      cases t with
      | nil => simp at hlen
      | cons b t2 =>
        have ha := hno a (by simp)
        have hb := hno b (by simp)
        have hab : a ∈ b :: t2 := by
          rw [ha, ← hb]
          exact List.mem_cons_self b t2
        exact (List.nodup_cons.mp hnd).1 hab
  · rintro ⟨m, hm, hmn⟩
    have hsub : ({m, n} : Finset Nat) ⊆ R.toFinset := by
      intro z hz
      rw [List.mem_toFinset]
      rcases Finset.mem_insert.mp hz with rfl | hz
      · exact hm
      · rw [Finset.mem_singleton] at hz
        subst hz
        exact hn
    have h2 : ({m, n} : Finset Nat).card = 2 := Finset.card_pair hmn
    have h3 := Finset.card_le_card hsub
    rw [h2, List.toFinset_card_of_nodup hnd] at h3
    omega

/-- C9 — selection propagation: toggling `n` on a well-formed snapshot turns
the selection into its union with the subtree of `n` (when `n` was not
selected) or its difference with that subtree (when it was); unrelated
selected ids are untouched; the force-loosen flag is true exactly when
selecting and the subtree holds more than one node. -/
theorem c9_selection_propagation (tags : List Node) (current : List Nat)
    (tag_id : Nat)
    (hnd : (tags.map (fun t => t.id)).Nodup)
    (hacyc : AcyclicLinks (parentOfNode tags)) :
    (tag_id ∉ current →
      (∀ x, x ∈ (toggle_tag_selection tags current tag_id).1 ↔
        (x ∈ current ∨ InSubtree tags tag_id x)) ∧
      ((toggle_tag_selection tags current tag_id).2 = true ↔
        ∃ m, m ≠ tag_id ∧ InSubtree tags tag_id m)) ∧
    (tag_id ∈ current →
      (∀ x, x ∈ (toggle_tag_selection tags current tag_id).1 ↔
        (x ∈ current ∧ ¬ InSubtree tags tag_id x)) ∧
      (toggle_tag_selection tags current tag_id).2 = false) := by
  obtain ⟨hRnd, hRn, hRchar⟩ := collect_subtree_char tags tag_id hnd hacyc
  constructor
  · intro hsel
    have ht : toggle_tag_selection tags current tag_id =
        ((collect_subtree tags (tags.length + 1) [tag_id] []).foldl
          (fun cur j => if j ∈ cur then cur else cur ++ [j]) current,
         decide (1 < (collect_subtree tags (tags.length + 1) [tag_id] []).length)) := by
      simp only [toggle_tag_selection]
      rw [if_neg hsel]
    rw [ht]
    constructor
    · intro x
      rw [mem_foldl_push]
      exact or_congr Iff.rfl (hRchar x)
    · rw [decide_eq_true_eq, one_lt_length_iff _ tag_id hRnd hRn]
      constructor
      · rintro ⟨m, hm, hmn⟩
        exact ⟨m, hmn, (hRchar m).mp hm⟩
      · rintro ⟨m, hmn, hms⟩
        exact ⟨m, (hRchar m).mpr hms, hmn⟩
  · intro hsel
    have ht : toggle_tag_selection tags current tag_id =
        (current.filter (fun j => decide
          (j ∉ collect_subtree tags (tags.length + 1) [tag_id] [])), false) := by
      simp only [toggle_tag_selection]
      rw [if_pos hsel]
    rw [ht]
    refine ⟨?_, rfl⟩
    intro x
    rw [List.mem_filter, decide_eq_true_eq]
    exact and_congr Iff.rfl (not_congr (hRchar x))

theorem c9_selection_propagation_witness :
    (1 ∉ ([9] : List Nat) →
      (∀ x, x ∈ (toggle_tag_selection crossNodes [9] 1).1 ↔
        (x ∈ ([9] : List Nat) ∨ InSubtree crossNodes 1 x)) ∧
      ((toggle_tag_selection crossNodes [9] 1).2 = true ↔
        ∃ m, m ≠ 1 ∧ InSubtree crossNodes 1 m)) ∧
    (1 ∈ ([9] : List Nat) →
      (∀ x, x ∈ (toggle_tag_selection crossNodes [9] 1).1 ↔
        (x ∈ ([9] : List Nat) ∧ ¬ InSubtree crossNodes 1 x)) ∧
      (toggle_tag_selection crossNodes [9] 1).2 = false) :=
  c9_selection_propagation crossNodes [9] 1 (by decide)
    (acyclicNodes_of_chains_exit crossNodes (by decide))

end Tagme
